import Mathlib

/-!
Verification of the farm parcel delineation algorithm of
`hydromt_geb/workflows/farmers.py` (`create_farms_numba`, `create_farms`)
and of the parcel cut/merge step of `hydromt_geb/geb.py` (`setup_farmers`).

The grid is embedded as a row-major `List Int` of length `H * W`.
Array accesses follow the semantics of the source's execution environment
(numpy indexing under numba's njit):
* a scalar index that is negative is wrapped once by adding the axis length
  (numpy negative indexing); an index that is still out of range after the
  wrap is an unchecked access, modelled here as reading the non-cultivable
  sentinel `-2` (a value that is never the "unassigned" marker `-1`, so such
  a read never triggers an assignment);
* slice bounds (used by the `farms[ylow:yhigh+1+ysearch, ...]` break check)
  follow Python slice normalisation: a negative bound is shifted by the axis
  length and then clamped into `[0, len]`, a non-negative bound is clamped
  to at most `len`.

Reads of the `ids` / `farm_sizes` sequences are modelled with a default
value and every read index is recorded in an `idReads` log, so that
out-of-range reads of the agent arrays are observable facts of a run.
Each cell assignment records the raw (pre-wrap) scan indices in a `log`.

The `while True` growth loop is embedded with explicit fuel; exhausting the
fuel yields the distinguished error `outOfFuel`.  Termination is then the
statement that some fuel avoids this error.
-/

namespace FarmsPy

/-- numpy negative-index wrap for an axis of length `len`: a negative index
is shifted once by the axis length, a non-negative index is unchanged. -/
def wrapI (len : Nat) (i : Int) : Int :=
  if i < 0 then i + len else i

/-- Scalar read `farms[yf, xf]` with numpy/numba semantics: a negative index
is wrapped once by the axis length; an access that is out of range after the
wrap is modelled as returning `-2`. -/
def readRaw (H W : Nat) (farms : List Int) (yf xf : Int) : Int :=
  if 0 ≤ wrapI H yf ∧ wrapI H yf < H ∧ 0 ≤ wrapI W xf ∧ wrapI W xf < W then
    farms.getD ((wrapI H yf).toNat * W + (wrapI W xf).toNat) (-2)
  else
    -2

/-- Scalar write `farms[yf, xf] = v` with the same index semantics as
`readRaw`; a write that is out of range after the wrap is dropped.  (In the
algorithm a write only ever happens after `readRaw` returned `-1`, which
forces the wrapped index to be in range, so no write is ever dropped.) -/
def writeRaw (H W : Nat) (farms : List Int) (yf xf : Int) (v : Int) : List Int :=
  if 0 ≤ wrapI H yf ∧ wrapI H yf < H ∧ 0 ≤ wrapI W xf ∧ wrapI W xf < W then
    farms.set ((wrapI H yf).toNat * W + (wrapI W xf).toNat) v
  else
    farms

/-- Python slice bound normalisation for an axis of length `len`:
negative bounds are shifted by `len` and clamped below by `0`,
all bounds are clamped above by `len`. -/
def normSlice (len : Nat) (i : Int) : Nat :=
  if i < 0 then (i + len).toNat else min i.toNat len

/-- The inclusive integer range `[lo, hi]` (empty when `hi < lo`); this is
Python's `range(lo, hi + 1)`. -/
def intRange (lo hi : Int) : List Int :=
  List.map (fun k : Nat => lo + (k : Int)) (List.range (hi + 1 - lo).toNat)

/-- `np.count_nonzero(farms[ys:ye, xs:xe] == -1) ≠ 0` for already normalised
slice bounds: does the rectangle `[ys, ye) × [xs, xe)` contain an
unassigned (`-1`) cell? -/
def sliceHasUnassigned (W : Nat) (farms : List Int) (ys ye xs xe : Nat) : Bool :=
  (List.range (ye - ys)).any fun dr =>
    (List.range (xe - xs)).any fun dc =>
      farms.getD ((ys + dr) * W + (xs + dc)) (-2) == -1

/-- The break check of the growth loop, source line 43:
`np.count_nonzero(farms[ylow:yhigh+1+ysearch, xlow:xhigh+1+xsearch] == -1)`,
as a Boolean (nonzero count). -/
def checkBox (H W : Nat) (farms : List Int)
    (ylow yhigh xlow xhigh : Int) (ysearch xsearch : Nat) : Bool :=
  sliceHasUnassigned W farms
    (normSlice H ylow) (normSlice H (yhigh + 1 + ysearch))
    (normSlice W xlow) (normSlice W (xhigh + 1 + xsearch))

/-- State threaded through one box scan (source lines 46-68): the grid, the
running `cur_farm_size` counter, the `farm_done` flag, and the log of raw
`(yf, xf)` scan positions at which an assignment was performed. -/
structure ScanSt where
  farms : List Int
  cur : Nat
  done : Bool
  log : List (Int × Int)
deriving DecidableEq

/-- The inner column loop `for xf in range(xlow, xhigh+1)` for a fixed row
`yf` (source lines 47-62): skip when `xf ≥ xsize` or `yf ≥ ysize`, assign
the current farm id to an unassigned cell, and break out as soon as
`cur_farm_size == farm_size`. -/
def scanRow (H W : Nat) (farmId farmSize : Int) (yf : Int) :
    List Int → ScanSt → ScanSt
  | [], st => st
  | xf :: rest, st =>
    if xf < (W : Int) ∧ yf < (H : Int) ∧ readRaw H W st.farms yf xf = -1 then
      let farms2 := writeRaw H W st.farms yf xf farmId
      if ((st.cur + 1 : Nat) : Int) = farmSize then
        { farms := farms2, cur := 0, done := true, log := st.log ++ [(yf, xf)] }
      else
        scanRow H W farmId farmSize yf rest
          { farms := farms2, cur := st.cur + 1, done := false, log := st.log ++ [(yf, xf)] }
    else
      scanRow H W farmId farmSize yf rest st

/-- The outer row loop `for yf in range(ylow, yhigh+1)` of the box scan
(source lines 46-65), breaking between rows when `farm_done` is set. -/
def scanBox (H W : Nat) (farmId farmSize : Int) :
    List Int → List Int → ScanSt → ScanSt
  | [], _, st => st
  | yf :: rest, cols, st =>
    let st2 := scanRow H W farmId farmSize yf cols st
    if st2.done then st2 else scanBox H W farmId farmSize rest cols st2

/-- State of the growth loop of a single seed cell (source lines 37-82):
the grid, `cur_farm_size`, the bounding box, the `ysearch`/`xsearch`
markers, the position in the random stream, and the assignment log.
(The `xmin/xmax/ymin/ymax` trackers of lines 37 and 49-56 are dead state:
they are never read by anything that reaches the returned value, and are
omitted.) -/
structure GrowSt where
  farms : List Int
  cur : Nat
  ylow : Int
  yhigh : Int
  xlow : Int
  xhigh : Int
  ysearch : Nat
  xsearch : Nat
  coinIdx : Nat
  log : List (Int × Int)
deriving DecidableEq

/-- Box expansion (source lines 70-82): the box grows by one row — upward
(`ylow -= 1`, setting `ysearch = 1`) iff the next coin is true, downward
(`yhigh += 1`, `ysearch = 0`) otherwise — and by one column — leftward
(`xlow -= 1`, `xsearch = 1`) iff the following coin is true, rightward
(`xhigh += 1`, `xsearch = 0`) otherwise. -/
def expandBox (coins : Nat → Bool) (st : GrowSt) : GrowSt :=
  let st3 :=
    if coins st.coinIdx then
      { st with ylow := st.ylow - 1, ysearch := 1 }
    else
      { st with yhigh := st.yhigh + 1, ysearch := 0 }
  if coins (st.coinIdx + 1) then
    { st3 with xlow := st3.xlow - 1, xsearch := 1, coinIdx := st.coinIdx + 2 }
  else
    { st3 with xhigh := st3.xhigh + 1, xsearch := 0, coinIdx := st.coinIdx + 2 }

/-- One agent's `while True` growth loop (source lines 42-82), with explicit
fuel.  Each iteration: break when the check slice holds no unassigned cell;
otherwise scan the current box; if the farm completed, return with the done
flag; otherwise expand the box and repeat.  Returns `none` when the fuel
runs out. -/
def growFarm (H W : Nat) (farmId farmSize : Int) (coins : Nat → Bool) :
    Nat → GrowSt → Option (GrowSt × Bool)
  | 0, _ => none
  | fuel + 1, st =>
    if checkBox H W st.farms st.ylow st.yhigh st.xlow st.xhigh st.ysearch st.xsearch then
      let s := scanBox H W farmId farmSize
        (intRange st.ylow st.yhigh) (intRange st.xlow st.xhigh)
        { farms := st.farms, cur := st.cur, done := false, log := st.log }
      if s.done then
        some ({ st with farms := s.farms, cur := s.cur, log := s.log }, true)
      else
        growFarm H W farmId farmSize coins fuel
          (expandBox coins { st with farms := s.farms, cur := s.cur, log := s.log })
    else
      some (st, false)

/-- Failure modes of `create_farms_numba`: the `assert farm_size > 0` of
source line 35, the `assert np.count_nonzero(farms == -1) == 0` of source
line 90, and exhaustion of the growth-loop fuel. -/
inductive AllocErr where
  | assertSizePos
  | assertNoUnassigned
  | outOfFuel
deriving DecidableEq

/-- State of the outer row-major scan (source lines 23-31): the grid, the
agent cursor `current_farm_counter`, `cur_farm_size`, the cached
`farm_id` / `farm_size` of the current agent, the random-stream position,
the log of indices at which `ids` / `farm_sizes` were read, and the
assignment log. -/
structure AllocSt where
  farms : List Int
  counter : Nat
  cur : Nat
  farmId : Int
  farmSize : Int
  coinIdx : Nat
  idReads : List Nat
  log : List (Int × Int)
deriving DecidableEq

/-- The body of the outer scan for one row-major cell index `p` (source
lines 33-88): on an unassigned cell, assert the current target is positive,
grow the farm from this seed, and on completion advance the cursor and
reload `farm_id` / `farm_size` (recording the read index). -/
def outerCell (H W : Nat) (ids sizes : List Int) (coins : Nat → Bool) (fuel : Nat)
    (p : Nat) (st : AllocSt) : Except AllocErr AllocSt :=
  if st.farms.getD p 0 = -1 then
    if st.farmSize ≤ 0 then
      .error .assertSizePos
    else
      match growFarm H W st.farmId st.farmSize coins fuel
        { farms := st.farms, cur := st.cur,
          ylow := (p / W : Nat), yhigh := (p / W : Nat) + 1,
          xlow := (p % W : Nat), xhigh := (p % W : Nat) + 1,
          ysearch := 0, xsearch := 0,
          coinIdx := st.coinIdx, log := st.log } with
      | none => .error .outOfFuel
      | some (g, done) =>
        if done then
          .ok { farms := g.farms, counter := st.counter + 1, cur := g.cur,
                farmId := ids.getD (st.counter + 1) 0,
                farmSize := sizes.getD (st.counter + 1) 0,
                coinIdx := g.coinIdx,
                idReads := st.idReads ++ [st.counter + 1], log := g.log }
        else
          .ok { st with farms := g.farms, cur := g.cur,
                        coinIdx := g.coinIdx, log := g.log }
  else
    .ok st

/-- The outer row-major scan over a list of cell indices. -/
def outerLoop (H W : Nat) (ids sizes : List Int) (coins : Nat → Bool) (fuel : Nat) :
    List Nat → AllocSt → Except AllocErr AllocSt
  | [], st => .ok st
  | p :: rest, st =>
    match outerCell H W ids sizes coins fuel p st with
    | .error e => .error e
    | .ok st2 => outerLoop H W ids sizes coins fuel rest st2

/-- Result of `create_farms_numba`: the final grid (after the sentinel
cleanup of source line 91), the log of agent-array read indices, and the
log of raw assignment positions. -/
structure AllocOut where
  grid : List Int
  idReads : List Nat
  log : List (Int × Int)
deriving DecidableEq

/-- `create_farms_numba(cultivated_land, ids, farm_sizes)` (source lines
6-92).  The grid is initialised with `-1` on cultivated and `-2` on
non-cultivated cells; the initial reads `ids[0]` / `farm_sizes[0]` of
lines 27-28 are recorded; after the scan, line 90 asserts that no `-1`
remains and line 91 rewrites the `-2` sentinel to the output sentinel
`-1`. -/
def create_farms_numba (H W : Nat) (cult : List Bool) (ids sizes : List Int)
    (coins : Nat → Bool) (fuel : Nat) : Except AllocErr AllocOut :=
  match outerLoop H W ids sizes coins fuel (List.range (H * W))
    { farms := cult.map (fun c => if c then (-1 : Int) else -2), counter := 0, cur := 0,
      farmId := ids.getD 0 0, farmSize := sizes.getD 0 0,
      coinIdx := 0, idReads := [0], log := [] } with
  | .error e => .error e
  | .ok st =>
    if st.farms.any (fun v => v == -1) then
      .error .assertNoUnassigned
    else
      .ok { grid := st.farms.map (fun v => if v ≠ -2 then v else -1),
            idReads := st.idReads, log := st.log }

/-- Number of cultivable cells, `cultivated_land.sum()`. -/
def countTrue (cult : List Bool) : Nat := cult.count true

/-- `np.max` over a list, with a floor of `-2` (every grid value is at
least `-2`, so on the nonempty grids of interest this is the numpy max). -/
def listMax (l : List Int) : Int := l.foldl max (-2)

/-- Failure modes of the `create_farms` wrapper: the precondition assert of
source line 95 (the spec's `ConfigurationError`), a failure inside the
allocator, and the four post-allocation asserts of lines 105-109. -/
inductive FarmsErr where
  | configError
  | alloc (e : AllocErr)
  | denseAssert
  | countAssert
  | maxAssert
  | maskAssert
deriving DecidableEq

/-- The post-allocation asserts of `create_farms`, source lines 103-109, in
source order: the dense-label assert of lines 105-106, the covered-cells
assert of line 107, the max-label assert of line 108 and the mask assert of
line 109.  `shuffled` is the (shuffled) agent table in use. -/
def post_asserts (H W : Nat) (cult : List Bool) (shuffled : List (Int × Int))
    (out : AllocOut) : Except FarmsErr (List Int) :=
  if ((out.grid.filter (fun v => decide (v ≠ -1))).dedup).length > 0 ∧
      (((out.grid.filter (fun v => decide (v ≠ -1))).dedup).length : Int) ≠
        listMax ((out.grid.filter (fun v => decide (v ≠ -1))).dedup) + 1 then
    .error .denseAssert
  else if (shuffled.map Prod.snd).sum ≠
      (out.grid.countP (fun v => decide (v ≠ -1)) : Int) then
    .error .countAssert
  else if listMax out.grid + 1 ≠ (shuffled.length : Int) then
    .error .maxAssert
  else if ¬ (∀ q, q < H * W → (0 ≤ out.grid.getD q 0 ↔ cult.getD q false = true)) then
    .error .maskAssert
  else
    .ok out.grid

/-- `create_farms(agents, cultivated_land_tehsil, farm_size_key)` (source
lines 94-111).  `agents` is the list of `(id, size)` pairs; the
`agents.sample(frac=1)` shuffle of line 97 is modelled by an externally
supplied visit order `perm` (the sampled row positions).  Line 95 checks
the size-sum precondition before anything else; then the allocator runs
and the post-allocation asserts are evaluated. -/
def create_farms (H W : Nat) (cult : List Bool) (agents : List (Int × Int))
    (perm : List Nat) (coins : Nat → Bool) (fuel : Nat) : Except FarmsErr (List Int) :=
  if (countTrue cult : Int) ≠ (agents.map Prod.snd).sum then
    .error .configError
  else
    match create_farms_numba H W cult
      ((perm.filterMap (fun i => agents.get? i)).map Prod.fst)
      ((perm.filterMap (fun i => agents.get? i)).map Prod.snd) coins fuel with
    | .error e => .error (.alloc e)
    | .ok out => post_asserts H W cult (perm.filterMap (fun i => agents.get? i)) out

/-- The cut set of `setup_farmers` (geb.py lines 1721-1722):
`np.unique(xr.where(region_mask, farms, -1))` with `-1` removed — the ids
of all parcels having at least one cell where `region_mask` (the
outside-the-study-area mask) is true. -/
def cut_farms (farms : List Int) (region_mask : List Bool) : List Int :=
  (((farms.zip region_mask).map (fun pr => if pr.2 then pr.1 else -1)).dedup).filter
    (fun v => decide (v ≠ -1))

/-- The removal step of `setup_farmers` (geb.py line 1727):
`xr.where(np.isin(subgrid_farms, cut_farms), -1, subgrid_farms)`. -/
def farms_in_study_area (farms : List Int) (region_mask : List Bool) : List Int :=
  farms.map (fun v => if v ∈ cut_farms farms region_mask then -1 else v)

/-- Number of cells of parcel `v` lying outside the study area (cells where
`region_mask` is true). -/
def outsideCount (farms : List Int) (region_mask : List Bool) (v : Int) : Nat :=
  (farms.zip region_mask).countP (fun pr => pr.1 == v && pr.2)

/-- Sum of the first `k` target sizes. -/
def sumPref (sizes : List Int) (k : Nat) : Int := (sizes.take k).sum

lemma getD_irrel {l : List Int} {p : Nat} (h : p < l.length) (d1 d2 : Int) :
    l.getD p d1 = l.getD p d2 := by
  rw [List.getD_eq_getElem l d1 h, List.getD_eq_getElem l d2 h]

lemma getD_set_self {l : List Int} {j : Nat} (h : j < l.length) (v d : Int) :
    (l.set j v).getD j d = v := by
  simp [List.getD_eq_getElem?_getD, List.getElem?_set, h]

lemma getD_set_ne {l : List Int} {i j : Nat} (h : j ≠ i) (v d : Int) :
    (l.set j v).getD i d = l.getD i d := by
  simp [List.getD_eq_getElem?_getD, List.getElem?_set, h]

lemma count_set_new {l : List Int} {j : Nat} (h : j < l.length) {b : Int}
    (hj : l.getD j (-2) = -1) (hb : b ≠ -1) :
    ((l.set j b).count b = l.count b + 1) ∧
    ((l.set j b).count (-1) + 1 = l.count (-1)) ∧
    (∀ v : Int, v ≠ -1 → v ≠ b → (l.set j b).count v = l.count v) := by
  have hje : l[j] = -1 := by rw [← List.getD_eq_getElem l (-2) h]; exact hj
  have hmem : (-1 : Int) ∈ l := by
    rw [← hje]; exact List.getElem_mem h
  have hcnt : 0 < l.count (-1) := List.count_pos_iff.mpr hmem
  refine ⟨?_, ?_, ?_⟩
  · rw [List.count_set _ _ _ _ h, hje]
    simp [hb, Ne.symm hb]
  · rw [List.count_set _ _ _ _ h, hje]
    simp only [beq_self_eq_true, if_true, beq_iff_eq, hb, if_false]
    omega
  · intro v hv1 hv2
    rw [List.count_set _ _ _ _ h, hje]
    simp [Ne.symm hv1, Ne.symm hv2]

lemma idx_lt {r c H W : Nat} (hr : r < H) (hc : c < W) : r * W + c < H * W :=
  calc r * W + c < r * W + W := by omega
  _ = (r + 1) * W := by ring
  _ ≤ H * W := Nat.mul_le_mul_right _ hr

lemma idx_decomp {p H W : Nat} (h : p < H * W) :
    p / W < H ∧ p % W < W ∧ (p / W) * W + p % W = p := by
  have hW : 0 < W := by
    by_contra h0
    have hW0 : W = 0 := by omega
    subst hW0
    rw [Nat.mul_zero] at h
    exact absurd h (Nat.not_lt_zero p)
  have h1 : p / W < H := Nat.div_lt_of_lt_mul (by rw [Nat.mul_comm]; exact h)
  have h3 := Nat.div_add_mod p W
  rw [Nat.mul_comm] at h3
  exact ⟨h1, Nat.mod_lt _ hW, h3⟩

/-- Shape of a read that found an unassigned cell: the wrapped index is a
real in-range cell holding `-1`, and the corresponding write sets exactly
that cell. -/
lemma readRaw_neg1 {H W : Nat} {farms : List Int} {yf xf : Int}
    (h : readRaw H W farms yf xf = -1) :
    ∃ r c : Nat, r < H ∧ c < W ∧
      wrapI H yf = r ∧ wrapI W xf = c ∧
      farms.getD (r * W + c) (-2) = -1 ∧
      ∀ v, writeRaw H W farms yf xf v = farms.set (r * W + c) v := by
  unfold readRaw at h
  by_cases hg : 0 ≤ wrapI H yf ∧ wrapI H yf < H ∧ 0 ≤ wrapI W xf ∧ wrapI W xf < W
  · rw [if_pos hg] at h
    obtain ⟨hy0, hyH, hx0, hxW⟩ := hg
    refine ⟨(wrapI H yf).toNat, (wrapI W xf).toNat, by omega, by omega, by omega, by omega,
      h, ?_⟩
    intro v
    unfold writeRaw
    rw [if_pos ⟨hy0, hyH, hx0, hxW⟩]
  · rw [if_neg hg] at h
    exact absurd h (by norm_num)

/-- A negative row index is not skipped: it wraps to the opposite edge of
the grid (numpy negative indexing), here row `-1` reads the last row. -/
lemma readRaw_neg_row (H W : Nat) (farms : List Int) (x : Nat)
    (hH : 0 < H) (hx : x < W) :
    readRaw H W farms (-1) (x : Int) = farms.getD ((H - 1) * W + x) (-2) := by
  have h1 : wrapI H (-1) = ((H - 1 : Nat) : Int) := by
    unfold wrapI
    rw [if_pos (by norm_num : (-1 : Int) < 0)]
    omega
  have h2 : wrapI W (x : Int) = (x : Int) := by
    unfold wrapI
    rw [if_neg (by omega : ¬ ((x : Int) < 0))]
  have hg : 0 ≤ wrapI H (-1) ∧ wrapI H (-1) < H ∧
      0 ≤ wrapI W (x : Int) ∧ wrapI W (x : Int) < W := by
    rw [h1, h2]
    refine ⟨by omega, by omega, by omega, by omega⟩
  unfold readRaw
  rw [if_pos hg, h1, h2]
  simp

lemma getD_ne_default {l : List Int} {j : Nat} {d v : Int} (h : l.getD j d = v) (hv : v ≠ d) :
    j < l.length := by
  by_contra hj
  rw [List.getD_eq_default] at h
  · exact hv h.symm
  · omega

/-- Pointwise grid-evolution discipline within one farm's growth: every
cell is unchanged or goes from unassigned (`-1`) to the farm id. -/
def Evolves (fid : Int) (l l2 : List Int) : Prop :=
  ∀ q : Nat, l2.getD q (-2) = l.getD q (-2) ∨ (l.getD q (-2) = -1 ∧ l2.getD q (-2) = fid)

lemma evolves_refl (fid : Int) (l : List Int) : Evolves fid l l :=
  fun _ => Or.inl rfl

lemma evolves_trans {fid : Int} (hfid : fid ≠ -1) {l1 l2 l3 : List Int}
    (h12 : Evolves fid l1 l2) (h23 : Evolves fid l2 l3) : Evolves fid l1 l3 := by
  intro q
  rcases h23 q with h3 | ⟨h2a, h3b⟩
  · rcases h12 q with h2 | ⟨h1a, h2b⟩
    · exact Or.inl (h3.trans h2)
    · exact Or.inr ⟨h1a, h3.trans h2b⟩
  · rcases h12 q with h2 | ⟨h1a, h2b⟩
    · exact Or.inr ⟨h2 ▸ h2a, h3b⟩
    · exact absurd (h2b.symm.trans h2a) hfid

/-- A cell already carrying the farm id stays so under evolution. -/
lemma Evolves.keep {fid : Int} {l l2 : List Int}
    (h : Evolves fid l l2) {q : Nat} (hq : l.getD q (-2) = fid) :
    l2.getD q (-2) = fid := by
  rcases h q with h1 | ⟨h1, h2⟩
  · exact h1.trans hq
  · exact h2

/-- The farms/counter/log part of a scan or growth state. -/
structure Cfg where
  farms : List Int
  cur : Nat
  log : List (Int × Int)

def ScanSt.cfg (st : ScanSt) : Cfg := ⟨st.farms, st.cur, st.log⟩

def GrowSt.cfg (st : GrowSt) : Cfg := ⟨st.farms, st.cur, st.log⟩

@[simp] lemma scanSt_cfg_farms (st : ScanSt) : st.cfg.farms = st.farms := rfl

@[simp] lemma scanSt_cfg_cur (st : ScanSt) : st.cfg.cur = st.cur := rfl

@[simp] lemma scanSt_cfg_log (st : ScanSt) : st.cfg.log = st.log := rfl

@[simp] lemma growSt_cfg_farms (st : GrowSt) : st.cfg.farms = st.farms := rfl

@[simp] lemma growSt_cfg_cur (st : GrowSt) : st.cfg.cur = st.cur := rfl

@[simp] lemma growSt_cfg_log (st : GrowSt) : st.cfg.log = st.log := rfl

/-- Relation between the state before and after a (partial) scan of the
current farm: the grid length is preserved, cells only evolve `-1 → fid`,
counts of all other values are untouched, the assignment log grows only by
in-guard raw positions, and `k` assignments were made, reflected in the
`-1` and `fid` counts and in the `cur_farm_size` counter (which on
completion has hit `fsz` exactly and was reset to `0`). -/
def StepRel (H W : Nat) (fid fsz : Int) (a b : Cfg) (done : Bool) : Prop :=
  b.farms.length = a.farms.length ∧
  Evolves fid a.farms b.farms ∧
  (∀ v : Int, v ≠ -1 → v ≠ fid → b.farms.count v = a.farms.count v) ∧
  (∃ new, b.log = a.log ++ new ∧ ∀ e ∈ new, e.1 < (H : Int) ∧ e.2 < (W : Int)) ∧
  ∃ k : Nat,
    b.farms.count (-1) + k = a.farms.count (-1) ∧
    b.farms.count fid = a.farms.count fid + k ∧
    (if done then ((a.cur + k : Nat) : Int) = fsz ∧ b.cur = 0
     else b.cur = a.cur + k ∧ ((a.cur : Int) < fsz → ((b.cur : Int) < fsz)))

lemma stepRel_refl (H W : Nat) (fid fsz : Int) (a : Cfg) : StepRel H W fid fsz a a false := by
  refine ⟨rfl, evolves_refl fid a.farms, fun _ _ _ => rfl, ⟨[], by simp, by simp⟩, 0, ?_, ?_, ?_⟩
  · omega
  · omega
  · simp

lemma stepRel_trans {H W : Nat} {fid fsz : Int} (hfid : fid ≠ -1) {a b c : Cfg} {done : Bool}
    (h1 : StepRel H W fid fsz a b false) (h2 : StepRel H W fid fsz b c done) :
    StepRel H W fid fsz a c done := by
  obtain ⟨hl1, he1, hc1, ⟨n1, hn1, hn1e⟩, k1, hm1, hp1, hq1⟩ := h1
  obtain ⟨hl2, he2, hc2, ⟨n2, hn2, hn2e⟩, k2, hm2, hp2, hq2⟩ := h2
  simp only [if_false, Bool.false_eq_true] at hq1
  refine ⟨hl2.trans hl1, evolves_trans hfid he1 he2,
    fun v hv1 hv2 => (hc2 v hv1 hv2).trans (hc1 v hv1 hv2),
    ⟨n1 ++ n2, by rw [hn2, hn1, List.append_assoc], ?_⟩, k1 + k2, by omega, by omega, ?_⟩
  · intro e he
    rcases List.mem_append.mp he with h | h
    · exact hn1e e h
    · exact hn2e e h
  · rcases done with _ | _
    · simp only [if_false, Bool.false_eq_true] at hq2 ⊢
      refine ⟨by omega, ?_⟩
      intro hlt
      exact hq2.2 (hq1.2 hlt)
    · simp only [if_true] at hq2 ⊢
      refine ⟨?_, hq2.2⟩
      have := hq2.1
      have h1c := hq1.1
      push_cast at this ⊢
      omega

lemma scanRow_spec (H W : Nat) (fid fsz : Int) (hfid : fid ≠ -1) (yf : Int) :
    ∀ (cols : List Int) (st : ScanSt), st.done = false →
      StepRel H W fid fsz st.cfg (scanRow H W fid fsz yf cols st).cfg
        (scanRow H W fid fsz yf cols st).done := by
  intro cols
  induction cols with
  | nil =>
    intro st hd
    rw [scanRow, hd]
    exact stepRel_refl H W fid fsz st.cfg
  | cons xf rest ih =>
    intro st hd
    rw [scanRow]
    by_cases hg : xf < (W : Int) ∧ yf < (H : Int) ∧ readRaw H W st.farms yf xf = -1
    · rw [if_pos hg]
      obtain ⟨hxW, hyH, hread⟩ := hg
      obtain ⟨r, c, hr, hc, hwy, hwx, hcell, hwrite⟩ := readRaw_neg1 hread
      have hj : r * W + c < st.farms.length := getD_ne_default hcell (by norm_num)
      have hw := hwrite fid
      have hcnt := count_set_new hj hcell hfid
      have hlen : (st.farms.set (r * W + c) fid).length = st.farms.length :=
        List.length_set st.farms (r * W + c) fid
      have hev : Evolves fid st.farms (st.farms.set (r * W + c) fid) := by
        intro q
        by_cases hq : r * W + c = q
        · subst hq
          exact Or.inr ⟨hcell, getD_set_self hj fid (-2)⟩
        · exact Or.inl (getD_set_ne hq fid (-2))
      by_cases hdone : ((st.cur + 1 : Nat) : Int) = fsz
      · rw [if_pos hdone]
        refine ⟨by simp [ScanSt.cfg, hw, hlen], by simpa [ScanSt.cfg, hw] using hev,
          ?_, ⟨[(yf, xf)], by simp [ScanSt.cfg], by simp [hxW, hyH]⟩, 1, ?_, ?_, ?_⟩
        · intro v hv1 hv2
          simpa [ScanSt.cfg, hw] using hcnt.2.2 v hv1 hv2
        · simpa [ScanSt.cfg, hw] using hcnt.2.1
        · simpa [ScanSt.cfg, hw] using hcnt.1
        · simp only [if_true]
          exact ⟨hdone, rfl⟩
      · rw [if_neg hdone]
        have hstep : StepRel H W fid fsz st.cfg
            (⟨st.farms.set (r * W + c) fid, st.cur + 1, st.log ++ [(yf, xf)]⟩ : Cfg) false := by
          refine ⟨hlen, hev, fun v hv1 hv2 => hcnt.2.2 v hv1 hv2,
            ⟨[(yf, xf)], rfl, by simp [hxW, hyH]⟩, 1, ?_, ?_, ?_⟩
          · exact hcnt.2.1
          · exact hcnt.1
          · simp only [if_false, Bool.false_eq_true]
            refine ⟨by simp, ?_⟩
            intro hlt
            simp only [scanSt_cfg_cur] at hlt ⊢
            push_cast at hdone hlt ⊢
            omega
        have hrec := ih
          ⟨st.farms.set (r * W + c) fid, st.cur + 1, false, st.log ++ [(yf, xf)]⟩ rfl
        rw [hw]
        exact stepRel_trans hfid (by simpa [ScanSt.cfg] using hstep) hrec
    · rw [if_neg hg]
      exact ih st hd

lemma scanBox_spec (H W : Nat) (fid fsz : Int) (hfid : fid ≠ -1) :
    ∀ (rows : List Int) (cols : List Int) (st : ScanSt), st.done = false →
      StepRel H W fid fsz st.cfg (scanBox H W fid fsz rows cols st).cfg
        (scanBox H W fid fsz rows cols st).done := by
  intro rows
  induction rows with
  | nil =>
    intro cols st hd
    rw [scanBox, hd]
    exact stepRel_refl H W fid fsz st.cfg
  | cons yf rest ih =>
    intro cols st hd
    rw [scanBox]
    have hrow := scanRow_spec H W fid fsz hfid yf cols st hd
    by_cases hdn : (scanRow H W fid fsz yf cols st).done = true
    · rw [if_pos hdn]
      exact hrow
    · rw [if_neg hdn]
      have hdn2 : (scanRow H W fid fsz yf cols st).done = false :=
        Bool.eq_false_iff.mpr hdn
      rw [hdn2] at hrow
      exact stepRel_trans hfid hrow (ih cols _ hdn2)

@[simp] lemma expandBox_cfg (coins : Nat → Bool) (st : GrowSt) :
    (expandBox coins st).cfg = st.cfg := by
  unfold expandBox
  split
  · split <;> rfl
  · split <;> rfl

lemma expandBox_farms (coins : Nat → Bool) (st : GrowSt) :
    (expandBox coins st).farms = st.farms := by
  unfold expandBox
  split
  · split <;> rfl
  · split <;> rfl

lemma expandBox_cur (coins : Nat → Bool) (st : GrowSt) :
    (expandBox coins st).cur = st.cur := by
  unfold expandBox
  split
  · split <;> rfl
  · split <;> rfl

lemma growFarm_spec {H W : Nat} {fid fsz : Int} {coins : Nat → Bool} (hfid : fid ≠ -1) :
    ∀ (fuel : Nat) (st g : GrowSt) (done : Bool),
      growFarm H W fid fsz coins fuel st = some (g, done) →
      StepRel H W fid fsz st.cfg g.cfg done := by
  intro fuel
  induction fuel with
  | zero =>
    intro st g done h
    exact absurd h (by rw [growFarm]; simp)
  | succ fuel ih =>
    intro st g done h
    rw [growFarm] at h
    by_cases hck : checkBox H W st.farms st.ylow st.yhigh st.xlow st.xhigh st.ysearch st.xsearch
      = true
    · rw [if_pos hck] at h
      have hscan := scanBox_spec H W fid fsz hfid
        (intRange st.ylow st.yhigh) (intRange st.xlow st.xhigh)
        { farms := st.farms, cur := st.cur, done := false, log := st.log } rfl
      set s := scanBox H W fid fsz (intRange st.ylow st.yhigh) (intRange st.xlow st.xhigh)
        { farms := st.farms, cur := st.cur, done := false, log := st.log } with hs
      by_cases hdn : s.done = true
      · rw [if_pos hdn] at h
        obtain ⟨hg, hdone⟩ : ({ st with farms := s.farms, cur := s.cur, log := s.log } = g)
            ∧ true = done := by
          have h2 := Option.some.inj h
          exact ⟨congrArg Prod.fst h2, congrArg Prod.snd h2⟩
        subst hg
        subst hdone
        rw [hdn] at hscan
        exact hscan
      · rw [if_neg hdn] at h
        have hdn2 : s.done = false := Bool.eq_false_iff.mpr hdn
        rw [hdn2] at hscan
        have hrec := ih _ g done h
        rw [expandBox_cfg] at hrec
        exact stepRel_trans hfid hscan hrec
    · rw [if_neg hck] at h
      obtain ⟨hg, hdone⟩ : (st = g) ∧ false = done := by
        have h2 := Option.some.inj h
        exact ⟨congrArg Prod.fst h2, congrArg Prod.snd h2⟩
      subst hg
      subst hdone
      exact stepRel_refl H W fid fsz st.cfg

/-- Log discipline of the inner scan, independent of any input conditions:
the assignment log grows only by raw positions satisfying the high-side
guard `xf < xsize and yf < ysize` of source line 48. -/
lemma scanRow_log (H W : Nat) (fid fsz : Int) (yf : Int) :
    ∀ (cols : List Int) (st : ScanSt),
      ∃ new, (scanRow H W fid fsz yf cols st).log = st.log ++ new ∧
        ∀ e ∈ new, e.1 < (H : Int) ∧ e.2 < (W : Int) := by
  intro cols
  induction cols with
  | nil =>
    intro st
    exact ⟨[], by rw [scanRow, List.append_nil], by simp⟩
  | cons xf rest ih =>
    intro st
    rw [scanRow]
    by_cases hg : xf < (W : Int) ∧ yf < (H : Int) ∧ readRaw H W st.farms yf xf = -1
    · rw [if_pos hg]
      by_cases hdone : ((st.cur + 1 : Nat) : Int) = fsz
      · rw [if_pos hdone]
        exact ⟨[(yf, xf)], rfl, by simp [hg.2.1, hg.1]⟩
      · rw [if_neg hdone]
        obtain ⟨new, hnew, hb⟩ := ih
          ⟨writeRaw H W st.farms yf xf fid, st.cur + 1, false, st.log ++ [(yf, xf)]⟩
        refine ⟨(yf, xf) :: new, by simpa using hnew, ?_⟩
        intro e he
        rcases List.mem_cons.mp he with h1 | h1
        · subst h1
          exact ⟨hg.2.1, hg.1⟩
        · exact hb e h1
    · rw [if_neg hg]
      exact ih st

lemma scanBox_log (H W : Nat) (fid fsz : Int) :
    ∀ (rows cols : List Int) (st : ScanSt),
      ∃ new, (scanBox H W fid fsz rows cols st).log = st.log ++ new ∧
        ∀ e ∈ new, e.1 < (H : Int) ∧ e.2 < (W : Int) := by
  intro rows
  induction rows with
  | nil =>
    intro cols st
    exact ⟨[], by rw [scanBox, List.append_nil], by simp⟩
  | cons yf rest ih =>
    intro cols st
    rw [scanBox]
    obtain ⟨n1, hn1, hb1⟩ := scanRow_log H W fid fsz yf cols st
    by_cases hdn : (scanRow H W fid fsz yf cols st).done = true
    · rw [if_pos hdn]
      exact ⟨n1, hn1, hb1⟩
    · rw [if_neg hdn]
      obtain ⟨n2, hn2, hb2⟩ := ih cols (scanRow H W fid fsz yf cols st)
      refine ⟨n1 ++ n2, by rw [hn2, hn1, List.append_assoc], ?_⟩
      intro e he
      rcases List.mem_append.mp he with h1 | h1
      · exact hb1 e h1
      · exact hb2 e h1

lemma growFarm_log {H W : Nat} {fid fsz : Int} {coins : Nat → Bool} :
    ∀ (fuel : Nat) (st g : GrowSt) (done : Bool),
      growFarm H W fid fsz coins fuel st = some (g, done) →
      ∃ new, g.log = st.log ++ new ∧ ∀ e ∈ new, e.1 < (H : Int) ∧ e.2 < (W : Int) := by
  intro fuel
  induction fuel with
  | zero =>
    intro st g done h
    exact absurd h (by rw [growFarm]; simp)
  | succ fuel ih =>
    intro st g done h
    rw [growFarm] at h
    by_cases hck : checkBox H W st.farms st.ylow st.yhigh st.xlow st.xhigh st.ysearch st.xsearch
      = true
    · rw [if_pos hck] at h
      obtain ⟨n1, hn1, hb1⟩ := scanBox_log H W fid fsz
        (intRange st.ylow st.yhigh) (intRange st.xlow st.xhigh)
        { farms := st.farms, cur := st.cur, done := false, log := st.log }
      set s := scanBox H W fid fsz (intRange st.ylow st.yhigh) (intRange st.xlow st.xhigh)
        { farms := st.farms, cur := st.cur, done := false, log := st.log } with hs
      by_cases hdn : s.done = true
      · rw [if_pos hdn] at h
        have h2 := Option.some.inj h
        have hg : { st with farms := s.farms, cur := s.cur, log := s.log } = g :=
          congrArg Prod.fst h2
        subst hg
        exact ⟨n1, hn1, hb1⟩
      · rw [if_neg hdn] at h
        obtain ⟨n2, hn2, hb2⟩ := ih _ g done h
        have hlog : (expandBox coins
            { st with farms := s.farms, cur := s.cur, log := s.log }).log = s.log := by
          have := expandBox_cfg coins { st with farms := s.farms, cur := s.cur, log := s.log }
          exact congrArg Cfg.log this
        rw [hlog] at hn2
        refine ⟨n1 ++ n2, by rw [hn2, hn1, List.append_assoc], ?_⟩
        intro e he
        rcases List.mem_append.mp he with h1 | h1
        · exact hb1 e h1
        · exact hb2 e h1
    · rw [if_neg hck] at h
      have h2 := Option.some.inj h
      have hg : st = g := congrArg Prod.fst h2
      subst hg
      exact ⟨[], by rw [List.append_nil], by simp⟩

lemma outerLoop_log {H W : Nat} {ids sizes : List Int} {coins : Nat → Bool} {fuel : Nat} :
    ∀ (cells : List Nat) (st r : AllocSt),
      outerLoop H W ids sizes coins fuel cells st = .ok r →
      ∃ new, r.log = st.log ++ new ∧ ∀ e ∈ new, e.1 < (H : Int) ∧ e.2 < (W : Int) := by
  intro cells
  induction cells with
  | nil =>
    intro st r h
    rw [outerLoop] at h
    have hr : st = r := Except.ok.inj h
    subst hr
    exact ⟨[], by rw [List.append_nil], by simp⟩
  | cons p rest ih =>
    intro st r h
    rw [outerLoop] at h
    rcases hc : outerCell H W ids sizes coins fuel p st with e | st2
    · rw [hc] at h
      exact absurd h (by simp)
    · rw [hc] at h
      have h2 : outerLoop H W ids sizes coins fuel rest st2 = .ok r := h
      obtain ⟨n2, hn2, hb2⟩ := ih st2 r h2
      have hstep : ∃ new, st2.log = st.log ++ new ∧
          ∀ e ∈ new, e.1 < (H : Int) ∧ e.2 < (W : Int) := by
        unfold outerCell at hc
        by_cases h1 : st.farms.getD p 0 = -1
        · rw [if_pos h1] at hc
          by_cases hsz : st.farmSize ≤ 0
          · rw [if_pos hsz] at hc
            exact absurd hc (by simp)
          · rw [if_neg hsz] at hc
            rcases hg : growFarm H W st.farmId st.farmSize coins fuel
              { farms := st.farms, cur := st.cur,
                ylow := (p / W : Nat), yhigh := (p / W : Nat) + 1,
                xlow := (p % W : Nat), xhigh := (p % W : Nat) + 1,
                ysearch := 0, xsearch := 0,
                coinIdx := st.coinIdx, log := st.log } with _ | gd
            · rw [hg] at hc
              exact absurd hc (by simp)
            · rw [hg] at hc
              obtain ⟨g, done⟩ := gd
              obtain ⟨new, hnew, hb⟩ := growFarm_log fuel _ g done hg
              rcases done with _ | _
              · simp only [Bool.false_eq_true, if_false] at hc
                have h3 := Except.ok.inj hc
                subst h3
                exact ⟨new, by simpa using hnew, hb⟩
              · simp only [if_true] at hc
                have h3 := Except.ok.inj hc
                subst h3
                exact ⟨new, by simpa using hnew, hb⟩
        · rw [if_neg h1] at hc
          have h3 := Except.ok.inj hc
          subst h3
          exact ⟨[], by rw [List.append_nil], by simp⟩
      obtain ⟨n1, hn1, hb1⟩ := hstep
      refine ⟨n1 ++ n2, by rw [hn2, hn1, List.append_assoc], ?_⟩
      intro e he
      rcases List.mem_append.mp he with h1 | h1
      · exact hb1 e h1
      · exact hb2 e h1

lemma zip_mem_iff {farms : List Int} {mask : List Bool} {pr : Int × Bool} :
    pr ∈ farms.zip mask ↔ ∃ i : Nat, i < farms.length ∧ i < mask.length ∧
      farms.getD i 0 = pr.1 ∧ mask.getD i false = pr.2 := by
  constructor
  · intro hpr
    obtain ⟨i, hi, hget⟩ := List.mem_iff_getElem.mp hpr
    have hi2 : i < farms.length ∧ i < mask.length := by
      have h3 := hi
      rw [List.length_zip] at h3
      exact ⟨lt_of_lt_of_le h3 inf_le_left, lt_of_lt_of_le h3 inf_le_right⟩
    rw [List.getElem_zip] at hget
    refine ⟨i, hi2.1, hi2.2, ?_, ?_⟩
    · rw [List.getD_eq_getElem farms 0 hi2.1, ← hget]
    · rw [List.getD_eq_getElem mask false hi2.2, ← hget]
  · rintro ⟨i, h1, h2, hf, hm⟩
    have hi : i < (farms.zip mask).length := by
      rw [List.length_zip]
      exact lt_inf_iff.mpr ⟨h1, h2⟩
    have hget : (farms.zip mask)[i] = pr := by
      rw [List.getElem_zip]
      rw [List.getD_eq_getElem farms 0 h1] at hf
      rw [List.getD_eq_getElem mask false h2] at hm
      rw [hf, hm]
    rw [← hget]
    exact List.getElem_mem hi

/-- Membership in the cut set: a parcel id is cut exactly when it is not
the sentinel and some cell of it lies where the outside mask is true. -/
lemma mem_cut_farms {farms : List Int} {mask : List Bool} {v : Int} :
    v ∈ cut_farms farms mask ↔
      v ≠ -1 ∧ ∃ i : Nat, i < farms.length ∧ i < mask.length ∧
        farms.getD i 0 = v ∧ mask.getD i false = true := by
  unfold cut_farms
  rw [List.mem_filter, List.mem_dedup, List.mem_map]
  constructor
  · rintro ⟨⟨pr, hpr, hite⟩, hdec⟩
    have hv : v ≠ -1 := by simpa using hdec
    refine ⟨hv, ?_⟩
    obtain ⟨i, h1, h2, hf, hm⟩ := zip_mem_iff.mp hpr
    by_cases hb : pr.2 = true
    · rw [if_pos hb] at hite
      exact ⟨i, h1, h2, hf.trans hite, hm.trans hb⟩
    · rw [if_neg hb] at hite
      exact absurd hite.symm hv
  · rintro ⟨hv, i, h1, h2, hf, hm⟩
    refine ⟨⟨(v, true), zip_mem_iff.mpr ⟨i, h1, h2, hf, hm⟩, by simp⟩, by simpa using hv⟩

/-- C9: the parcel `0` of the grid `[0, 0, 1]` has exactly one of its two
cells outside the study area (not a strict majority), yet it is in the cut
set and is removed from the merged grid together: the code discards on any
overlap with the outside mask, not on a majority. -/
theorem C9_counterexample :
    ((0 : Int) ∈ cut_farms [0, 0, 1] [true, false, false]) ∧
    farms_in_study_area [0, 0, 1] [true, false, false] = [-1, -1, 1] ∧
    2 * outsideCount [0, 0, 1] [true, false, false] 0 ≤ List.count (0 : Int) [0, 0, 1] := by
  refine ⟨by decide, by decide, by decide⟩

/-- C9 (amended): the Region Driver discards a parcel exactly when AT LEAST
ONE of its cells falls outside the study-area mask (any overlap removes the
parcel), and the removal rewrites exactly the cut parcels to the sentinel. -/
theorem C9_cut_iff_any_outside (farms : List Int) (mask : List Bool) (v : Int)
    (hv : v ≠ -1) :
    (v ∈ cut_farms farms mask ↔ 0 < outsideCount farms mask v) ∧
    (∀ q, q < farms.length →
      (farms_in_study_area farms mask).getD q 0 =
        if farms.getD q 0 ∈ cut_farms farms mask then -1 else farms.getD q 0) := by
  constructor
  · unfold outsideCount
    rw [List.countP_pos_iff, mem_cut_farms]
    constructor
    · rintro ⟨_, i, h1, h2, hf, hm⟩
      exact ⟨(v, true), zip_mem_iff.mpr ⟨i, h1, h2, hf, hm⟩, by simp⟩
    · rintro ⟨pr, hpr, hp⟩
      have hp2 : pr.1 = v ∧ pr.2 = true := by
        constructor
        · have h3 := (Bool.and_eq_true _ _).mp hp
          exact beq_iff_eq.mp h3.1
        · exact ((Bool.and_eq_true _ _).mp hp).2
      obtain ⟨i, h1, h2, hf, hm⟩ := zip_mem_iff.mp hpr
      exact ⟨hv, i, h1, h2, hf.trans hp2.1, hm.trans hp2.2⟩
  · intro q hq
    unfold farms_in_study_area
    have hql : q < (farms.map
        (fun v => if v ∈ cut_farms farms mask then -1 else v)).length := by
      rw [List.length_map]
      exact hq
    rw [List.getD_eq_getElem _ 0 hql, List.getElem_map, List.getD_eq_getElem farms 0 hq]

/-- C9 (amended) witness: in the grid `[5, 5]` with only the second cell
outside, parcel `5` is cut (iff it has an outside cell), and the removal
maps both its cells to the sentinel. -/
theorem C9_cut_iff_any_outside_witness :
    (((5 : Int) ∈ cut_farms [5, 5] [false, true]) ↔
      0 < outsideCount [5, 5] [false, true] 5) ∧
    (∀ q, q < ([(5 : Int), 5]).length →
      (farms_in_study_area [5, 5] [false, true]).getD q 0 =
        if ([(5 : Int), 5]).getD q 0 ∈ cut_farms [5, 5] [false, true] then -1
        else ([(5 : Int), 5]).getD q 0) :=
  C9_cut_iff_any_outside [5, 5] [false, true] 5 (by decide)

/-- C3: counterexample — the input `ids = [0, 1]`, `sizes = [3, 0]` on a
fully cultivable `1 × 3` grid violates the strict-positivity precondition,
yet no `ConfigurationError` is raised before mutation: the allocator runs
to completion and returns a fully populated grid, and the wrapper fails
only at the post-allocation assert `farms.max() + 1 == len(agents)`
(source line 108). -/
theorem C3_counterexample :
    create_farms 1 3 [true, true, true] [(0, 3), (1, 0)] [0, 1] (fun _ => false) 50 =
      Except.error FarmsErr.maxAssert ∧
    create_farms_numba 1 3 [true, true, true] [0, 1] [3, 0] (fun _ => false) 50 =
      Except.ok ⟨[0, 0, 0], [0, 1], [(0, 0), (0, 1), (0, 2)]⟩ :=
  ⟨by rfl, by rfl⟩

/-- C3 (amended): only the sizes-sum precondition is validated before any
allocation work: when the number of cultivable cells differs from the sum
of the requested sizes, `create_farms` fails immediately with the
precondition assert of source line 95 (the spec's `ConfigurationError`),
before the allocator is invoked.  Mismatched lengths and non-positive
sizes are not pre-validated. -/
theorem C3_sum_precheck (H W : Nat) (cult : List Bool) (agents : List (Int × Int))
    (perm : List Nat) (coins : Nat → Bool) (fuel : Nat)
    (h : (countTrue cult : Int) ≠ (agents.map Prod.snd).sum) :
    create_farms H W cult agents perm coins fuel = Except.error FarmsErr.configError := by
  unfold create_farms
  rw [if_pos h]

/-- C3 (amended) witness: one cultivable cell against a requested total of
two fails the precondition check. -/
theorem C3_sum_precheck_witness :
    create_farms 1 1 [true] [(0, 2)] [0] (fun _ => false) 5 =
      Except.error FarmsErr.configError :=
  C3_sum_precheck 1 1 [true] [(0, 2)] [0] (fun _ => false) 5 (by decide)

/-- C4: counterexample — on a `3 × 1` grid with a single agent of size 3
and coins always choosing upward/leftward expansion, the box scan reaches
the raw position `(-1, -1)`, which is NOT skipped: it is recorded in the
assignment log and assigns the geometrically distant cell `(2, 0)` (the
bottom row) by numpy negative-index wraparound, although that cell lies
outside the current box (rows `-1..1`) intersected with the grid. -/
theorem C4_counterexample :
    create_farms_numba 3 1 [true, true, true] [0] [3] (fun _ => true) 20 =
      Except.ok ⟨[0, 0, 0], [0, 1], [(0, 0), (1, 0), (-1, -1)]⟩ ∧
    readRaw 3 1 [0, 0, -1] (-1) (-1) = -1 :=
  ⟨by rfl, by rfl⟩

/-- C4 (amended): during the box scan only HIGH-side out-of-range raw
indices (`yf ≥ H` or `xf ≥ W`) are skipped — every logged assignment
satisfies `yf < H ∧ xf < W` — while a negative raw index is not skipped
but wraps to the cell on the opposite edge of the grid (numpy semantics),
which may therefore be read and assigned. -/
theorem C4_high_skipped_neg_wraps (H W : Nat) (cult : List Bool) (ids sizes : List Int)
    (coins : Nat → Bool) (fuel : Nat) (out : AllocOut)
    (h : create_farms_numba H W cult ids sizes coins fuel = Except.ok out) :
    (∀ e ∈ out.log, e.1 < (H : Int) ∧ e.2 < (W : Int)) ∧
    (∀ (farms : List Int) (x : Nat), 0 < H → x < W →
      readRaw H W farms (-1) (x : Int) = farms.getD ((H - 1) * W + x) (-2)) := by
  constructor
  · unfold create_farms_numba at h
    rcases hol : outerLoop H W ids sizes coins fuel (List.range (H * W))
      { farms := cult.map (fun c => if c then (-1 : Int) else -2), counter := 0, cur := 0,
        farmId := ids.getD 0 0, farmSize := sizes.getD 0 0,
        coinIdx := 0, idReads := [0], log := [] } with e | stf
    · rw [hol] at h
      have h2 : (Except.error e : Except AllocErr AllocOut) = Except.ok out := h
      exact absurd h2 (by simp)
    · rw [hol] at h
      have h2 : (if (stf.farms.any (fun v => v == -1)) = true then
            (Except.error AllocErr.assertNoUnassigned : Except AllocErr AllocOut)
          else Except.ok
            { grid := stf.farms.map (fun v => if v ≠ -2 then v else -1),
              idReads := stf.idReads, log := stf.log }) = Except.ok out := h
      by_cases hany : (stf.farms.any (fun v => v == -1)) = true
      · rw [if_pos hany] at h2
        exact absurd h2 (by simp)
      · rw [if_neg hany] at h2
        have hout : out.log = stf.log := by
          have h3 := Except.ok.inj h2
          rw [← h3]
        obtain ⟨new, hnew, hb⟩ := outerLoop_log _ _ _ hol
        rw [hout, hnew]
        intro e he
        rcases List.mem_append.mp he with h1 | h1
        · exact absurd h1 (by simp)
        · exact hb e h1
  · intro farms x hH hx
    exact readRaw_neg_row H W farms x hH hx

/-- C4 (amended) witness: a concrete successful run on a `1 × 2` grid. -/
theorem C4_high_skipped_neg_wraps_witness :
    (∀ e ∈ ([((0 : Int), (0 : Int)), (0, 1)] : List (Int × Int)),
      e.1 < ((1 : Nat) : Int) ∧ e.2 < ((2 : Nat) : Int)) ∧
    (∀ (farms : List Int) (x : Nat), 0 < 1 → x < 2 →
      readRaw 1 2 farms (-1) (x : Int) = farms.getD ((1 - 1) * 2 + x) (-2)) :=
  C4_high_skipped_neg_wraps 1 2 [true, true] [4] [2] (fun _ => false) 9
    ⟨[4, 4], [0, 1], [(0, 0), (0, 1)]⟩ (by rfl)

/-- C5: after the final agent's parcel reaches its target size the cursor
is advanced and `ids` / `farm_sizes` are read at the new cursor
unconditionally (source lines 86-88), so on this valid input with a single
agent (`N = 1`) the run performs a read at index `1 = N`, past the end of
both arrays: the recorded read-index log is `[0, 1]`.  Under plain numpy
this is an `IndexError`; under numba's unchecked indexing it reads out of
bounds. -/
theorem C5_cursor_reads_past_end :
    create_farms_numba 1 1 [true] [(0 : Int)] [(1 : Int)] (fun _ => false) 9 =
      Except.ok ⟨[0], [0, 1], [(0, 0)]⟩ ∧
    ([(0 : Int)] : List Int).length ∈ ([0, 1] : List Nat) :=
  ⟨by rfl, by decide⟩

/-- C7: counterexample — on a `1 × 5` grid with target size 4 and coins
always expanding upward/leftward, the second break check is computed on
the slice `farms[0:3, 4:3]`, which is EMPTY under Python slice semantics,
so the growth loop exits with `farm_done = False` and only 2 of 4 cells
placed: the loop does not exit only by reaching the target. -/
theorem C7_counterexample :
    growFarm 1 5 0 4 (fun _ => true) 10 ⟨[-1, -1, -1, -1, -1], 0, 0, 1, 0, 1, 0, 0, 0, []⟩ =
      some (⟨[0, 0, -1, -1, -1], 2, -1, 1, -1, 1, 1, 1, 2, [(0, 0), (0, 1)]⟩, false) := by
  rfl

/-- C7 (amended): the growth loop exits either by completing the target
(`farm_done`) or, possibly with the parcel incomplete, when its break-check
window holds no unassigned cell; in the incomplete case the outer scan
resumes with the same agent still current — cursor, cached id and size,
and the partial placed-count are all retained — so the parcel is continued
from a later seed. -/
theorem C7_incomplete_exit_keeps_agent :
    (∀ (H W : Nat) (fid fsz : Int) (coins : Nat → Bool) (fuel : Nat) (st g : GrowSt),
      growFarm H W fid fsz coins fuel st = some (g, false) →
      checkBox H W g.farms g.ylow g.yhigh g.xlow g.xhigh g.ysearch g.xsearch = false) ∧
    (∀ (H W : Nat) (ids sizes : List Int) (coins : Nat → Bool) (fuel p : Nat)
      (st : AllocSt) (g : GrowSt),
      st.farms.getD p 0 = -1 → ¬ st.farmSize ≤ 0 →
      growFarm H W st.farmId st.farmSize coins fuel
        ⟨st.farms, st.cur, (p / W : Nat), (p / W : Nat) + 1,
          (p % W : Nat), (p % W : Nat) + 1, 0, 0, st.coinIdx, st.log⟩ = some (g, false) →
      outerCell H W ids sizes coins fuel p st =
        .ok { st with farms := g.farms, cur := g.cur, coinIdx := g.coinIdx, log := g.log }) := by
  constructor
  · intro H W fid fsz coins fuel
    induction fuel with
    | zero =>
      intro st g h
      exact absurd h (by rw [growFarm]; simp)
    | succ fuel ih =>
      intro st g h
      rw [growFarm] at h
      by_cases hck : checkBox H W st.farms st.ylow st.yhigh st.xlow st.xhigh st.ysearch
        st.xsearch = true
      · rw [if_pos hck] at h
        set s := scanBox H W fid fsz (intRange st.ylow st.yhigh) (intRange st.xlow st.xhigh)
          { farms := st.farms, cur := st.cur, done := false, log := st.log } with hs
        by_cases hdn : s.done = true
        · rw [if_pos hdn] at h
          have h2 := Option.some.inj h
          exact absurd (congrArg Prod.snd h2) (by simp)
        · rw [if_neg hdn] at h
          exact ih _ g h
      · rw [if_neg hck] at h
        have h2 := Option.some.inj h
        have hg : st = g := congrArg Prod.fst h2
        subst hg
        exact Bool.eq_false_iff.mpr hck
  · intro H W ids sizes coins fuel p st g h1 h2 h3
    unfold outerCell
    rw [if_pos h1, if_neg h2, h3]
    rfl

/-- C7 (amended) witness: the concrete incomplete exit of a `1 × 5` run
leaves a state whose break-check window is empty. -/
theorem C7_incomplete_exit_keeps_agent_witness :
    checkBox 1 5 [0, 0, -1, -1, -1] (-1) 1 (-1) 1 1 1 = false :=
  C7_incomplete_exit_keeps_agent.1 1 5 0 4 (fun _ => true) 10
    ⟨[-1, -1, -1, -1, -1], 0, 0, 1, 0, 1, 0, 0, 0, []⟩
    ⟨[0, 0, -1, -1, -1], 2, -1, 1, -1, 1, 1, 1, 2, [(0, 0), (0, 1)]⟩ (by rfl)

lemma readRaw_inrange {H W : Nat} (farms : List Int) {y x : Nat} (hy : y < H) (hx : x < W) :
    readRaw H W farms (y : Int) (x : Int) = farms.getD (y * W + x) (-2) := by
  have h1 : wrapI H (y : Int) = (y : Int) := by
    unfold wrapI
    rw [if_neg (by omega)]
  have h2 : wrapI W (x : Int) = (x : Int) := by
    unfold wrapI
    rw [if_neg (by omega)]
  unfold readRaw
  rw [h1, h2, if_pos ⟨by omega, by omega, by omega, by omega⟩]
  simp

lemma writeRaw_inrange {H W : Nat} (farms : List Int) {y x : Nat} (v : Int)
    (hy : y < H) (hx : x < W) :
    writeRaw H W farms (y : Int) (x : Int) v = farms.set (y * W + x) v := by
  have h1 : wrapI H (y : Int) = (y : Int) := by
    unfold wrapI
    rw [if_neg (by omega)]
  have h2 : wrapI W (x : Int) = (x : Int) := by
    unfold wrapI
    rw [if_neg (by omega)]
  unfold writeRaw
  rw [h1, h2, if_pos ⟨by omega, by omega, by omega, by omega⟩]
  simp

/-- The first break check at a fresh seed always succeeds: the seed cell
itself is unassigned and lies inside the check window. -/
lemma checkBox_seed {H W : Nat} {farms : List Int} {y x : Nat}
    (hy : y < H) (hx : x < W) (hcell : farms.getD (y * W + x) (-2) = -1) :
    checkBox H W farms (y : Int) ((y : Int) + 1) (x : Int) ((x : Int) + 1) 0 0 = true := by
  have hys : normSlice H (y : Int) = y := by
    unfold normSlice
    rw [if_neg (by omega)]
    omega
  have hye : normSlice H ((y : Int) + 1 + 1 + (0 : Nat)) = min (y + 2) H := by
    unfold normSlice
    rw [if_neg (by omega)]
    omega
  have hxs : normSlice W (x : Int) = x := by
    unfold normSlice
    rw [if_neg (by omega)]
    omega
  have hxe : normSlice W ((x : Int) + 1 + 1 + (0 : Nat)) = min (x + 2) W := by
    unfold normSlice
    rw [if_neg (by omega)]
    omega
  unfold checkBox
  rw [hys, hye, hxs, hxe]
  unfold sliceHasUnassigned
  rw [List.any_eq_true]
  refine ⟨0, List.mem_range.mpr (by omega), ?_⟩
  rw [List.any_eq_true]
  refine ⟨0, List.mem_range.mpr (by omega), ?_⟩
  rw [beq_iff_eq]
  simpa using hcell

lemma intRange_pair (a : Int) : intRange a (a + 1) = [a, a + 1] := by
  unfold intRange
  have h2 : (a + 1 + 1 - a).toNat = 2 := by omega
  rw [h2]
  simp [List.range_succ]

/-- The head cell of a scan row starting at an unassigned seed is assigned
the farm id, and the assignment survives the rest of the row. -/
lemma scanRow_first_assign {H W : Nat} {fid : Int} (fsz : Int) {y x : Nat} (hfid : fid ≠ -1)
    (hy : y < H) (hx : x < W) (cols : List Int) (st : ScanSt)
    (hcell : st.farms.getD (y * W + x) (-2) = -1) :
    (scanRow H W fid fsz (y : Int) ((x : Int) :: cols) st).farms.getD (y * W + x) (-2)
      = fid := by
  have hj : y * W + x < st.farms.length := getD_ne_default hcell (by norm_num)
  have hg : (x : Int) < (W : Int) ∧ (y : Int) < (H : Int) ∧
      readRaw H W st.farms (y : Int) (x : Int) = -1 := by
    refine ⟨by omega, by omega, ?_⟩
    rw [readRaw_inrange st.farms hy hx]
    exact hcell
  rw [scanRow, if_pos hg, writeRaw_inrange st.farms fid hy hx]
  by_cases hdone : ((st.cur + 1 : Nat) : Int) = fsz
  · rw [if_pos hdone]
    exact getD_set_self hj fid (-2)
  · rw [if_neg hdone]
    have hset : (st.farms.set (y * W + x) fid).getD (y * W + x) (-2) = fid :=
      getD_set_self hj fid (-2)
    have hspec := scanRow_spec H W fid fsz hfid (y : Int) cols
      ⟨st.farms.set (y * W + x) fid, st.cur + 1, false, st.log ++ [((y : Int), (x : Int))]⟩ rfl
    exact Evolves.keep hspec.2.1 hset

/-- Assignment of the seed cell survives the full box scan. -/
lemma scanBox_seed_assign {H W : Nat} {fid : Int} (fsz : Int) {y x : Nat} (hfid : fid ≠ -1)
    (hy : y < H) (hx : x < W) (rows cols : List Int) (st : ScanSt) (_hd : st.done = false)
    (hcell : st.farms.getD (y * W + x) (-2) = -1) :
    (scanBox H W fid fsz ((y : Int) :: rows) ((x : Int) :: cols) st).farms.getD
      (y * W + x) (-2) = fid := by
  rw [scanBox]
  have hfirst := scanRow_first_assign fsz hfid hy hx cols st hcell
  by_cases hdn : (scanRow H W fid fsz (y : Int) ((x : Int) :: cols) st).done = true
  · rw [if_pos hdn]
    exact hfirst
  · rw [if_neg hdn]
    have hdn2 : (scanRow H W fid fsz (y : Int) ((x : Int) :: cols) st).done = false :=
      Bool.eq_false_iff.mpr hdn
    have hspec := scanBox_spec H W fid fsz hfid rows ((x : Int) :: cols) _ hdn2
    exact Evolves.keep hspec.2.1 hfirst

/-- The seed cell of a growth call ends up assigned to the farm id. -/
lemma growFarm_seed {H W : Nat} {fid fsz : Int} {coins : Nat → Bool} (hfid : fid ≠ -1)
    {fuel : Nat} {st g : GrowSt} {done : Bool} {y x : Nat}
    (hy : y < H) (hx : x < W)
    (hbox : st.ylow = (y : Int) ∧ st.yhigh = (y : Int) + 1 ∧ st.xlow = (x : Int) ∧
      st.xhigh = (x : Int) + 1 ∧ st.ysearch = 0 ∧ st.xsearch = 0)
    (hcell : st.farms.getD (y * W + x) (-2) = -1)
    (h : growFarm H W fid fsz coins fuel st = some (g, done)) :
    g.farms.getD (y * W + x) (-2) = fid := by
  obtain ⟨hb1, hb2, hb3, hb4, hb5, hb6⟩ := hbox
  rcases fuel with _ | fuel
  · exact absurd h (by rw [growFarm]; simp)
  · rw [growFarm] at h
    have hck : checkBox H W st.farms st.ylow st.yhigh st.xlow st.xhigh st.ysearch st.xsearch
        = true := by
      rw [hb1, hb2, hb3, hb4, hb5, hb6]
      exact checkBox_seed hy hx hcell
    rw [if_pos hck] at h
    have hrows : intRange st.ylow st.yhigh = [(y : Int), (y : Int) + 1] := by
      rw [hb1, hb2]
      exact intRange_pair (y : Int)
    have hcols : intRange st.xlow st.xhigh = [(x : Int), (x : Int) + 1] := by
      rw [hb3, hb4]
      exact intRange_pair (x : Int)
    rw [hrows, hcols] at h
    have hseed := scanBox_seed_assign fsz hfid hy hx [(y : Int) + 1] [(x : Int) + 1]
      ⟨st.farms, st.cur, false, st.log⟩ rfl hcell
    set s := scanBox H W fid fsz [(y : Int), (y : Int) + 1] [(x : Int), (x : Int) + 1]
      ⟨st.farms, st.cur, false, st.log⟩ with hs
    by_cases hdn : s.done = true
    · rw [if_pos hdn] at h
      have h2 := Option.some.inj h
      have hg2 : { st with farms := s.farms, cur := s.cur, log := s.log } = g :=
        congrArg Prod.fst h2
      rw [← hg2]
      exact hseed
    · rw [if_neg hdn] at h
      have hspec := growFarm_spec hfid fuel _ g done h
      have hev : Evolves fid s.farms g.farms := by
        have h3 := hspec.2.1
        simp only [growSt_cfg_farms, expandBox_farms] at h3
        exact h3
      exact Evolves.keep hev hseed

lemma init_getD (cult : List Bool) (q : Nat) (hq : q < cult.length) :
    (cult.map (fun c => if c then (-1 : Int) else -2)).getD q (-2) =
      if cult.getD q false then -1 else -2 := by
  have hq2 : q < (cult.map (fun c => if c then (-1 : Int) else -2)).length := by
    rw [List.length_map]
    exact hq
  rw [List.getD_eq_getElem _ (-2) hq2, List.getElem_map, List.getD_eq_getElem cult false hq]

lemma init_count_neg1 (cult : List Bool) :
    (cult.map (fun c => if c then (-1 : Int) else -2)).count (-1) = countTrue cult := by
  unfold countTrue
  induction cult with
  | nil => rfl
  | cons c rest ih =>
    rcases c with _ | _
    · simpa [List.count_cons] using ih
    · simpa [List.count_cons] using ih

lemma init_count_other (cult : List Bool) (v : Int) (h1 : v ≠ -1) (h2 : v ≠ -2) :
    (cult.map (fun c => if c then (-1 : Int) else -2)).count v = 0 := by
  induction cult with
  | nil => rfl
  | cons c rest ih =>
    rcases c with _ | _
    · simpa [List.count_cons, Ne.symm h2] using ih
    · simpa [List.count_cons, Ne.symm h1] using ih

lemma count_pos_of_getD {l : List Int} {q : Nat} {v : Int} (hq : q < l.length)
    (h : l.getD q (-2) = v) : 0 < l.count v := by
  refine List.count_pos_iff.mpr ?_
  rw [List.getD_eq_getElem l (-2) hq] at h
  rw [← h]
  exact List.getElem_mem hq

lemma count_zero_of_all_ne {l : List Int} {v : Int}
    (h : ∀ q, q < l.length → l.getD q (-2) ≠ v) : l.count v = 0 := by
  rw [List.count_eq_zero]
  intro hmem
  obtain ⟨i, hi, hget⟩ := List.mem_iff_getElem.mp hmem
  exact h i hi (by rw [List.getD_eq_getElem l (-2) hi]; exact hget)

lemma exists_getD_of_count_pos {l : List Int} {v : Int} (h : 0 < l.count v) :
    ∃ q, q < l.length ∧ l.getD q (-2) = v := by
  obtain ⟨i, hi, hget⟩ := List.mem_iff_getElem.mp (List.count_pos_iff.mp h)
  exact ⟨i, hi, by rw [List.getD_eq_getElem l (-2) hi]; exact hget⟩

lemma count_cleanup (l : List Int) (v : Int) (h1 : v ≠ -1) (h2 : v ≠ -2) :
    (l.map (fun w => if w ≠ -2 then w else -1)).count v = l.count v := by
  induction l with
  | nil => rfl
  | cons w rest ih =>
    by_cases hw : w ≠ -2
    · simp only [List.map_cons, if_pos hw, List.count_cons, ih]
    · have hw2 : w = -2 := by omega
      subst hw2
      simp only [List.map_cons, if_neg hw, List.count_cons, ih]
      simp [Ne.symm h1, Ne.symm h2]

lemma getD_cleanup (l : List Int) (q : Nat) (hq : q < l.length) (d : Int) :
    (l.map (fun w => if w ≠ -2 then w else -1)).getD q d =
      if l.getD q (-2) ≠ -2 then l.getD q (-2) else -1 := by
  have hq2 : q < (l.map (fun w => if w ≠ -2 then w else -1)).length := by
    rw [List.length_map]
    exact hq
  rw [List.getD_eq_getElem _ d hq2, List.getElem_map, List.getD_eq_getElem l (-2) hq]

lemma sumPref_succ (sizes : List Int) (k : Nat) (h : k < sizes.length) :
    sumPref sizes (k + 1) = sumPref sizes k + sizes.getD k 0 := by
  unfold sumPref
  rw [List.sum_take_succ sizes k h, List.getD_eq_getElem sizes 0 h]

lemma sumPref_all (sizes : List Int) : sumPref sizes sizes.length = sizes.sum := by
  unfold sumPref
  rw [List.take_length]

lemma sumPref_le_of_pos (sizes : List Int)
    (hpos : ∀ j, j < sizes.length → 0 < sizes.getD j 0) :
    ∀ b, b ≤ sizes.length → ∀ a, a ≤ b → sumPref sizes a ≤ sumPref sizes b := by
  intro b
  induction b with
  | zero =>
    intro _ a ha
    have ha0 : a = 0 := by omega
    subst ha0
    exact le_refl _
  | succ b ihb =>
    intro hb a ha
    by_cases hab : a = b + 1
    · subst hab
      exact le_refl _
    · have ha2 : a ≤ b := by omega
      have hb2 : b < sizes.length := by omega
      calc sumPref sizes a ≤ sumPref sizes b := ihb (by omega) a ha2
      _ ≤ sumPref sizes (b + 1) := by
        rw [sumPref_succ sizes b hb2]
        have := hpos b hb2
        omega

lemma nodup_getD_ne {ids : List Int} (hnd : ids.Nodup) {i j : Nat}
    (hi : i < ids.length) (hj : j < ids.length) (hij : i ≠ j) :
    ids.getD i 0 ≠ ids.getD j 0 := by
  rw [List.getD_eq_getElem ids 0 hi, List.getD_eq_getElem ids 0 hj]
  intro heq
  have hinj := List.nodup_iff_injective_get.mp hnd
  have h2 : ids.get ⟨i, hi⟩ = ids.get ⟨j, hj⟩ := by
    simpa using heq
  have h3 := hinj h2
  exact hij (congrArg Fin.val h3)

/-- The preconditions of the allocator contract (spec section 4.1): equal
lengths of the id and size sequences, strictly positive sizes, valid
(non-negative, pairwise-distinct) agent ids, sizes summing to the number
of cultivable cells, and a mask of the grid's shape. -/
structure Pre (H W : Nat) (cult : List Bool) (ids sizes : List Int) : Prop where
  hcl : cult.length = H * W
  hlen : sizes.length = ids.length
  hpos : ∀ j, j < ids.length → 0 < sizes.getD j 0
  hnn : ∀ j, j < ids.length → 0 ≤ ids.getD j 0
  hnd : ids.Nodup
  hsum : sizes.sum = (countTrue cult : Int)

/-- Invariant of the outer row-major scan after the first `p` cells have
been processed. -/
structure Inv (H W : Nat) (cult : List Bool) (ids sizes : List Int) (p : Nat)
    (st : AllocSt) : Prop where
  hflen : st.farms.length = H * W
  hcnt : st.counter ≤ ids.length
  hbefore : ∀ q, q < p → st.farms.getD q (-2) ≠ -1
  hsent : ∀ q, q < H * W → (st.farms.getD q (-2) = -2 ↔ cult.getD q false = false)
  hvals : ∀ q, q < H * W → st.farms.getD q (-2) = -2 ∨ st.farms.getD q (-2) = -1 ∨
    ∃ j, j ≤ st.counter ∧ j < ids.length ∧ st.farms.getD q (-2) = ids.getD j 0
  hid : st.farmId = ids.getD st.counter 0
  hsize : st.farmSize = sizes.getD st.counter 0
  hcur : st.counter < ids.length → (st.cur : Int) < sizes.getD st.counter 0
  hcurN : st.counter = ids.length → st.cur = 0
  hccur : st.counter < ids.length →
    (st.farms.count (ids.getD st.counter 0) : Int) = st.cur
  hcdone : ∀ j, j < st.counter → (st.farms.count (ids.getD j 0) : Int) = sizes.getD j 0
  hcfut : ∀ j, st.counter < j → j < ids.length → st.farms.count (ids.getD j 0) = 0
  hbook : (st.farms.count (-1) : Int) + sumPref sizes st.counter + st.cur =
    (countTrue cult : Int)

/-- Processing one outer cell preserves the invariant. -/
lemma outerCell_inv {H W : Nat} {cult : List Bool} {ids sizes : List Int}
    (pre : Pre H W cult ids sizes) {coins : Nat → Bool} {fuel : Nat} {p : Nat}
    {st st2 : AllocSt}
    (hp : p < H * W) (inv : Inv H W cult ids sizes p st)
    (h : outerCell H W ids sizes coins fuel p st = .ok st2) :
    Inv H W cult ids sizes (p + 1) st2 := by
  unfold outerCell at h
  have hpl : p < st.farms.length := by
    rw [inv.hflen]
    exact hp
  by_cases hcell : st.farms.getD p 0 = -1
  case neg =>
    rw [if_neg hcell] at h
    have hst : st = st2 := Except.ok.inj h
    subst hst
    refine ⟨inv.hflen, inv.hcnt, ?_, inv.hsent, inv.hvals, inv.hid, inv.hsize, inv.hcur,
      inv.hcurN, inv.hccur, inv.hcdone, inv.hcfut, inv.hbook⟩
    intro q hq
    rcases Nat.lt_or_ge q p with h1 | h1
    · exact inv.hbefore q h1
    · have hqp : q = p := by omega
      subst hqp
      rw [getD_irrel hpl (-2) 0]
      exact hcell
  case pos =>
    rw [if_pos hcell] at h
    have hcell2 : st.farms.getD p (-2) = -1 := by
      rw [getD_irrel hpl (-2) 0]
      exact hcell
    have hcm1 : 0 < st.farms.count (-1) := count_pos_of_getD hpl hcell2
    have hcnt2 : st.counter < ids.length := by
      rcases Nat.lt_or_ge st.counter ids.length with h1 | h1
      · exact h1
      · exfalso
        have hceq : st.counter = ids.length := by
          have := inv.hcnt
          omega
        have hz := inv.hcurN hceq
        have hb := inv.hbook
        rw [hceq, hz, ← pre.hlen, sumPref_all, pre.hsum] at hb
        omega
    have hsz : ¬ st.farmSize ≤ 0 := by
      rw [inv.hsize]
      have := pre.hpos st.counter hcnt2
      omega
    rw [if_neg hsz] at h
    rw [inv.hid, inv.hsize] at h
    rcases hg : growFarm H W (ids.getD st.counter 0) (sizes.getD st.counter 0) coins fuel
      { farms := st.farms, cur := st.cur,
        ylow := (p / W : Nat), yhigh := (p / W : Nat) + 1,
        xlow := (p % W : Nat), xhigh := (p % W : Nat) + 1,
        ysearch := 0, xsearch := 0,
        coinIdx := st.coinIdx, log := st.log } with _ | gd
    · rw [hg] at h
      exact absurd h (by simp)
    · rw [hg] at h
      obtain ⟨g, done⟩ := gd
      have hfid_nn : 0 ≤ ids.getD st.counter 0 := pre.hnn _ hcnt2
      have hfid : ids.getD st.counter 0 ≠ -1 := by omega
      have hfid2 : ids.getD st.counter 0 ≠ -2 := by omega
      have hspec := growFarm_spec hfid fuel _ g done hg
      obtain ⟨hL, hE, hC, _, k, hm1, hmf, hq⟩ := hspec
      simp only [growSt_cfg_farms, growSt_cfg_cur] at hL hE hC hm1 hmf hq
      obtain ⟨hyH, hxW, hyx⟩ := idx_decomp hp
      have hseed : g.farms.getD p (-2) = ids.getD st.counter 0 := by
        have h2 := growFarm_seed hfid hyH hxW ⟨rfl, rfl, rfl, rfl, rfl, rfl⟩
          (by rw [hyx]; exact hcell2) hg
        rw [hyx] at h2
        exact h2
      have hbef : ∀ q, q < p + 1 → g.farms.getD q (-2) ≠ -1 := by
        intro q hq2
        rcases Nat.lt_or_ge q p with h1 | h1
        · rcases hE q with h2 | ⟨h2, h3⟩
          · rw [h2]
            exact inv.hbefore q h1
          · rw [h3]
            exact hfid
        · have hqp : q = p := by omega
          subst hqp
          rw [hseed]
          exact hfid
      have hsent2 : ∀ q, q < H * W →
          (g.farms.getD q (-2) = -2 ↔ cult.getD q false = false) := by
        intro q hq2
        rcases hE q with h2 | ⟨h2, h3⟩
        · rw [h2]
          exact inv.hsent q hq2
        · rw [h3]
          constructor
          · intro h4
            exact absurd h4 hfid2
          · intro h4
            exfalso
            have h5 := (inv.hsent q hq2).mpr h4
            rw [h2] at h5
            norm_num at h5
      have hvals2 : ∀ q, q < H * W → g.farms.getD q (-2) = -2 ∨ g.farms.getD q (-2) = -1 ∨
          ∃ j, j ≤ st.counter ∧ j < ids.length ∧ g.farms.getD q (-2) = ids.getD j 0 := by
        intro q hq2
        rcases hE q with h2 | ⟨h2, h3⟩
        · rw [h2]
          exact inv.hvals q hq2
        · rw [h3]
          exact Or.inr (Or.inr ⟨st.counter, le_refl _, hcnt2, rfl⟩)
      have hflen2 : g.farms.length = H * W := by
        rw [hL]
        exact inv.hflen
      rcases done with _ | _
      · simp only [Bool.false_eq_true, if_false] at h hq
        have hst : _ = st2 := Except.ok.inj h
        subst hst
        refine ⟨?_, ?_, ?_, ?_, ?_, ?_, ?_, ?_, ?_, ?_, ?_, ?_, ?_⟩ <;> dsimp only
        · exact hflen2
        · exact inv.hcnt
        · exact hbef
        · exact hsent2
        · exact hvals2
        · intro _
          exact hq.2 (inv.hcur hcnt2)
        · intro h4
          exact absurd h4 (by omega)
        · intro _
          have h5 := inv.hccur hcnt2
          have h6 := hq.1
          push_cast [hmf, h6]
          omega
        · intro j hj
          rw [hC (ids.getD j 0) (by have := pre.hnn j (by omega); omega)
            (nodup_getD_ne pre.hnd (by omega) hcnt2 (by omega))]
          exact inv.hcdone j hj
        · intro j hj1 hj2
          rw [hC (ids.getD j 0) (by have := pre.hnn j hj2; omega)
            (nodup_getD_ne pre.hnd hj2 hcnt2 (by omega))]
          exact inv.hcfut j hj1 hj2
        · have h5 := inv.hbook
          have h6 := hq.1
          push_cast at h5 ⊢
          omega
      · simp only [if_true] at h hq
        have hst : _ = st2 := Except.ok.inj h
        subst hst
        have hccur0 : (st.farms.count (ids.getD st.counter 0) : Int) = st.cur :=
          inv.hccur hcnt2
        refine ⟨?_, ?_, ?_, ?_, ?_, ?_, ?_, ?_, ?_, ?_, ?_, ?_, ?_⟩ <;> dsimp only
        · exact hflen2
        · omega
        · exact hbef
        · exact hsent2
        · intro q hq2
          rcases hvals2 q hq2 with h2 | h2 | ⟨j, hj1, hj2, hj3⟩
          · exact Or.inl h2
          · exact Or.inr (Or.inl h2)
          · exact Or.inr (Or.inr ⟨j, by omega, hj2, hj3⟩)
        · intro h4
          have h5 := pre.hpos _ h4
          rw [hq.2]
          push_cast
          omega
        · intro _
          exact hq.2
        · intro h4
          have h5 : st.farms.count (ids.getD (st.counter + 1) 0) = 0 :=
            inv.hcfut (st.counter + 1) (by omega) h4
          have h6 := hC (ids.getD (st.counter + 1) 0)
            (by have := pre.hnn _ h4; omega)
            (nodup_getD_ne pre.hnd h4 hcnt2 (by omega))
          rw [hq.2, h6, h5]
        · intro j hj
          rcases Nat.lt_or_ge j st.counter with h1 | h1
          · rw [hC (ids.getD j 0) (by have := pre.hnn j (by omega); omega)
              (nodup_getD_ne pre.hnd (by omega) hcnt2 (by omega))]
            exact inv.hcdone j h1
          · have hjc : j = st.counter := by omega
            subst hjc
            have h6 := hq.1
            push_cast [hmf]
            push_cast at h6 hccur0
            omega
        · intro j hj1 hj2
          rw [hC (ids.getD j 0) (by have := pre.hnn j hj2; omega)
            (nodup_getD_ne pre.hnd hj2 hcnt2 (by omega))]
          exact inv.hcfut j (by omega) hj2
        · have h5 := inv.hbook
          have h6 := hq.1
          rw [sumPref_succ sizes st.counter (by rw [pre.hlen]; exact hcnt2), hq.2]
          push_cast at h5 h6 ⊢
          omega

/-- The invariant holds for the freshly initialised state. -/
lemma inv_init {H W : Nat} {cult : List Bool} {ids sizes : List Int}
    (pre : Pre H W cult ids sizes) :
    Inv H W cult ids sizes 0
      { farms := cult.map (fun c => if c then (-1 : Int) else -2), counter := 0, cur := 0,
        farmId := ids.getD 0 0, farmSize := sizes.getD 0 0,
        coinIdx := 0, idReads := [0], log := [] } := by
  refine ⟨?_, ?_, ?_, ?_, ?_, ?_, ?_, ?_, ?_, ?_, ?_, ?_, ?_⟩ <;> dsimp only
  · rw [List.length_map]
    exact pre.hcl
  · exact Nat.zero_le _
  · intro q hq
    exact absurd hq (by omega)
  · intro q hq
    rw [init_getD cult q (by rw [pre.hcl]; exact hq)]
    by_cases hc : cult.getD q false = true
    · rw [if_pos hc, hc]
      norm_num
    · have hc2 : cult.getD q false = false := Bool.eq_false_iff.mpr hc
      rw [if_neg hc, hc2]
      norm_num
  · intro q hq
    rw [init_getD cult q (by rw [pre.hcl]; exact hq)]
    by_cases hc : cult.getD q false = true
    · rw [if_pos hc]
      exact Or.inr (Or.inl rfl)
    · rw [if_neg hc]
      exact Or.inl rfl
  · intro h4
    have := pre.hpos 0 h4
    push_cast
    omega
  · intro _
    rfl
  · intro h4
    have h1 := pre.hnn 0 h4
    rw [init_count_other cult (ids.getD 0 0) (by omega) (by omega)]
  · intro j hj
    exact absurd hj (by omega)
  · intro j hj1 hj2
    have h1 := pre.hnn j hj2
    exact init_count_other cult (ids.getD j 0) (by omega) (by omega)
  · rw [init_count_neg1]
    unfold sumPref
    simp

/-- The outer scan preserves the invariant over any suffix of cells. -/
lemma outerLoop_inv {H W : Nat} {cult : List Bool} {ids sizes : List Int}
    (pre : Pre H W cult ids sizes) {coins : Nat → Bool} {fuel : Nat} :
    ∀ (k p : Nat) (st st2 : AllocSt), p + k = H * W → Inv H W cult ids sizes p st →
      outerLoop H W ids sizes coins fuel (List.range' p k) st = .ok st2 →
      Inv H W cult ids sizes (H * W) st2 := by
  intro k
  induction k with
  | zero =>
    intro p st st2 hpk hinv h
    have h2 : outerLoop H W ids sizes coins fuel [] st = .ok st2 := h
    rw [outerLoop] at h2
    have hst : st = st2 := Except.ok.inj h2
    subst hst
    have hpw : p = H * W := by omega
    subst hpw
    exact hinv
  | succ k ihk =>
    intro p st st2 hpk hinv h
    have h2 : outerLoop H W ids sizes coins fuel (p :: List.range' (p + 1) k) st
        = .ok st2 := by
      rw [← List.range'_succ]
      exact h
    rw [outerLoop] at h2
    rcases hc : outerCell H W ids sizes coins fuel p st with e | st3
    · rw [hc] at h2
      exact absurd h2 (by simp)
    · rw [hc] at h2
      have h3 : outerLoop H W ids sizes coins fuel (List.range' (p + 1) k) st3
          = .ok st2 := h2
      exact ihk (p + 1) st3 st2 (by omega) (outerCell_inv pre (by omega) hinv hc) h3

lemma foldl_max_init (l : List Int) (a : Int) : a ≤ l.foldl max a := by
  induction l generalizing a with
  | nil => exact le_refl a
  | cons w rest ih =>
    calc a ≤ max a w := le_max_left a w
    _ ≤ rest.foldl max (max a w) := ih (max a w)

lemma listMax_ge {l : List Int} {v : Int} (h : v ∈ l) : v ≤ listMax l := by
  unfold listMax
  generalize (-2 : Int) = a
  induction l generalizing a with
  | nil => exact absurd h (by simp)
  | cons w rest ih =>
    rcases List.mem_cons.mp h with h1 | h1
    · subst h1
      calc v ≤ max a v := le_max_right a v
      _ ≤ rest.foldl max (max a v) := foldl_max_init rest (max a v)
    · exact ih h1 (max a w)

/-- Pointwise agreement with the mask determines the count of cells
satisfying a predicate. -/
lemma countP_eq_countTrue (p : Int → Bool) :
    ∀ (l : List Int) (cult : List Bool), l.length = cult.length →
      (∀ q, q < l.length → p (l.getD q (-2)) = cult.getD q false) →
      l.countP p = countTrue cult := by
  intro l
  induction l with
  | nil =>
    intro cult hl _
    cases cult with
    | nil => rfl
    | cons c crest => simp at hl
  | cons v rest ih =>
    intro cult hl h
    cases cult with
    | nil => simp at hl
    | cons c crest =>
      have h0 := h 0 (by simp)
      have hrest : ∀ q, q < rest.length → p (rest.getD q (-2)) = crest.getD q false := by
        intro q hq
        have h2 := h (q + 1) (by simpa using Nat.succ_lt_succ hq)
        simpa [List.getD_cons_succ] using h2
      have hl2 : rest.length = crest.length := by simpa using hl
      unfold countTrue at *
      rw [List.countP_cons, List.count_cons, ih crest hl2 hrest]
      simp only [List.getD_cons_zero] at h0
      rw [h0]
      by_cases hc : c = true
      · rw [hc]
        simp
      · have hc2 : c = false := Bool.eq_false_iff.mpr hc
        rw [hc2]
        simp

lemma getD_mem_of_lt {α : Type} {l : List α} {j : Nat} (h : j < l.length) (d : α) :
    l.getD j d ∈ l := by
  rw [List.getD_eq_getElem l d h]
  exact List.getElem_mem h

/-- Master correctness of a successful allocator run under the
preconditions: the output grid has the mask's shape, gives every agent
exactly its requested number of cells, labels every cultivable cell with
some input id, maps every non-cultivable cell to the output sentinel `-1`,
and its number of non-sentinel cells equals the number of cultivable
cells. -/
lemma alloc_final {H W : Nat} {cult : List Bool} {ids sizes : List Int}
    {coins : Nat → Bool} {fuel : Nat} {out : AllocOut}
    (pre : Pre H W cult ids sizes)
    (h : create_farms_numba H W cult ids sizes coins fuel = .ok out) :
    out.grid.length = H * W ∧
    (∀ i, i < ids.length → (out.grid.count (ids.getD i 0) : Int) = sizes.getD i 0) ∧
    (∀ q, q < H * W →
      (cult.getD q false = true →
        ∃ j, j < ids.length ∧ out.grid.getD q 0 = ids.getD j 0 ∧ 0 ≤ out.grid.getD q 0) ∧
      (cult.getD q false = false → out.grid.getD q 0 = -1)) ∧
    out.grid.countP (fun v => decide (v ≠ -1)) = countTrue cult := by
  unfold create_farms_numba at h
  rcases hol : outerLoop H W ids sizes coins fuel (List.range (H * W))
    { farms := cult.map (fun c => if c then (-1 : Int) else -2), counter := 0, cur := 0,
      farmId := ids.getD 0 0, farmSize := sizes.getD 0 0,
      coinIdx := 0, idReads := [0], log := [] } with e | stf
  · rw [hol] at h
    have h2 : (Except.error e : Except AllocErr AllocOut) = Except.ok out := h
    exact absurd h2 (by simp)
  · rw [hol] at h
    have h2 : (if (stf.farms.any (fun v => v == -1)) = true then
          (Except.error AllocErr.assertNoUnassigned : Except AllocErr AllocOut)
        else Except.ok
          { grid := stf.farms.map (fun v => if v ≠ -2 then v else -1),
            idReads := stf.idReads, log := stf.log }) = Except.ok out := h
    rw [List.range_eq_range'] at hol
    have hfin : Inv H W cult ids sizes (H * W) stf :=
      outerLoop_inv pre (H * W) 0 _ stf (by omega) (inv_init pre) hol
    have hnone : ∀ q, q < H * W → stf.farms.getD q (-2) ≠ -1 := fun q hq =>
      hfin.hbefore q hq
    have hany : ¬ (stf.farms.any (fun v => v == -1)) = true := by
      rw [List.any_eq_true]
      rintro ⟨v, hv, hv2⟩
      have hv3 : v = -1 := by simpa using hv2
      subst hv3
      obtain ⟨q, hq, hq2⟩ := exists_getD_of_count_pos (List.count_pos_iff.mpr hv)
      exact hnone q (by rw [← hfin.hflen]; exact hq) hq2
    rw [if_neg hany] at h2
    have hout := Except.ok.inj h2
    have hgrid : out.grid = stf.farms.map (fun v => if v ≠ -2 then v else -1) := by
      rw [← hout]
    -- the cursor has consumed all agents
    have hcnt1 : (stf.farms.count (-1) : Int) = 0 := by
      rw [count_zero_of_all_ne (fun q hq =>
        hnone q (by rw [← hfin.hflen]; exact hq))]
      rfl
    have hbook := hfin.hbook
    have hN : stf.counter = ids.length := by
      rcases Nat.lt_or_ge stf.counter ids.length with h3 | h3
      · exfalso
        have h4 := hfin.hcur h3
        have h5 : sumPref sizes (stf.counter + 1) ≤ sumPref sizes sizes.length := by
          refine sumPref_le_of_pos sizes ?_ sizes.length (le_refl _) (stf.counter + 1)
            (by rw [pre.hlen]; omega)
          intro j hj
          exact pre.hpos j (by rw [← pre.hlen]; exact hj)
        rw [sumPref_succ sizes stf.counter (by rw [pre.hlen]; exact h3)] at h5
        rw [sumPref_all, pre.hsum] at h5
        omega
      · have := hfin.hcnt
        omega
    have hlen2 : out.grid.length = H * W := by
      rw [hgrid, List.length_map]
      exact hfin.hflen
    refine ⟨hlen2, ?_, ?_, ?_⟩
    · intro i hi
      have h3 := hfin.hcdone i (by omega)
      have hnn := pre.hnn i hi
      rw [hgrid, count_cleanup stf.farms (ids.getD i 0) (by omega) (by omega)]
      exact h3
    · intro q hq
      have hql : q < stf.farms.length := by
        rw [hfin.hflen]
        exact hq
      have hclean : out.grid.getD q 0 =
          if stf.farms.getD q (-2) ≠ -2 then stf.farms.getD q (-2) else -1 := by
        rw [hgrid]
        exact getD_cleanup stf.farms q hql 0
      constructor
      · intro hc
        have hne2 : stf.farms.getD q (-2) ≠ -2 := by
          intro h4
          have h5 := (hfin.hsent q hq).mp h4
          rw [hc] at h5
          exact absurd h5 (by simp)
        rcases hfin.hvals q hq with h4 | h4 | ⟨j, hj1, hj2, hj3⟩
        · exact absurd h4 hne2
        · exact absurd h4 (hnone q hq)
        · refine ⟨j, hj2, ?_, ?_⟩
          · rw [hclean, if_pos hne2]
            exact hj3
          · rw [hclean, if_pos hne2, hj3]
            exact pre.hnn j hj2
      · intro hc
        have h4 := (hfin.hsent q hq).mpr hc
        rw [hclean, if_neg (by rw [h4]; simp)]
    · rw [hgrid]
      refine countP_eq_countTrue _ _ cult (by rw [List.length_map, hfin.hflen, pre.hcl]) ?_
      intro q hq
      have hql : q < stf.farms.length := by
        rw [List.length_map] at hq
        exact hq
      have hq2 : q < H * W := by
        rw [← hfin.hflen]
        exact hql
      have hclean : (stf.farms.map (fun v => if v ≠ -2 then v else -1)).getD q (-2) =
          if stf.farms.getD q (-2) ≠ -2 then stf.farms.getD q (-2) else -1 := by
        have h5 := getD_cleanup stf.farms q hql (-2)
        exact h5
      rw [hclean]
      by_cases hc : cult.getD q false = true
      · rw [hc]
        have hne2 : stf.farms.getD q (-2) ≠ -2 := by
          intro h4
          have h5 := (hfin.hsent q hq2).mp h4
          rw [hc] at h5
          exact absurd h5 (by simp)
        rw [if_pos hne2]
        rcases hfin.hvals q hq2 with h4 | h4 | ⟨j, hj1, hj2, hj3⟩
        · exact absurd h4 hne2
        · exact absurd h4 (hnone q hq2)
        · have := pre.hnn j hj2
          rw [hj3]
          simp only [decide_eq_true_eq]
          omega
      · have hc2 : cult.getD q false = false := Bool.eq_false_iff.mpr hc
        rw [hc2]
        have h4 := (hfin.hsent q hq2).mpr hc2
        rw [if_neg (by rw [h4]; simp)]
        simp

lemma outerCell_err {H W : Nat} {ids sizes : List Int} {coins : Nat → Bool} {fuel p : Nat}
    {st : AllocSt} {e : AllocErr}
    (h : outerCell H W ids sizes coins fuel p st = .error e) :
    e = AllocErr.assertSizePos ∨ e = AllocErr.outOfFuel := by
  unfold outerCell at h
  by_cases h1 : st.farms.getD p 0 = -1
  · rw [if_pos h1] at h
    by_cases h2 : st.farmSize ≤ 0
    · rw [if_pos h2] at h
      exact Or.inl (Except.error.inj h).symm
    · rw [if_neg h2] at h
      rcases hg : growFarm H W st.farmId st.farmSize coins fuel
        { farms := st.farms, cur := st.cur,
          ylow := (p / W : Nat), yhigh := (p / W : Nat) + 1,
          xlow := (p % W : Nat), xhigh := (p % W : Nat) + 1,
          ysearch := 0, xsearch := 0,
          coinIdx := st.coinIdx, log := st.log } with _ | gd
      · rw [hg] at h
        exact Or.inr (Except.error.inj h).symm
      · rw [hg] at h
        obtain ⟨g, done⟩ := gd
        rcases done with _ | _
        · simp at h
        · simp at h
  · rw [if_neg h1] at h
    exact absurd h (by simp)

lemma outerLoop_err {H W : Nat} {ids sizes : List Int} {coins : Nat → Bool} {fuel : Nat} :
    ∀ (cells : List Nat) (st : AllocSt) (e : AllocErr),
      outerLoop H W ids sizes coins fuel cells st = .error e →
      e = AllocErr.assertSizePos ∨ e = AllocErr.outOfFuel := by
  intro cells
  induction cells with
  | nil =>
    intro st e h
    rw [outerLoop] at h
    exact absurd h (by simp)
  | cons p rest ih =>
    intro st e h
    rw [outerLoop] at h
    rcases hc : outerCell H W ids sizes coins fuel p st with e2 | st2
    · rw [hc] at h
      have h2 : (Except.error e2 : Except AllocErr AllocSt) = Except.error e := h
      have h3 : e2 = e := Except.error.inj h2
      subst h3
      exact outerCell_err hc
    · rw [hc] at h
      exact ih st2 e h

/-- C1: for every input satisfying the preconditions (mask of the grid's
shape, equally long id/size sequences, strictly positive sizes, valid
distinct non-negative ids, sizes summing to the cultivable cell count),
any grid returned by the allocator gives each agent exactly its requested
size: the number of cells labelled `ids[i]` is exactly `sizes[i]`. -/
theorem C1_exact_size_match (H W : Nat) (cult : List Bool) (ids sizes : List Int)
    (coins : Nat → Bool) (fuel : Nat) (out : AllocOut)
    (hcl : cult.length = H * W)
    (hlen : sizes.length = ids.length)
    (hpos : ∀ j, j < ids.length → 0 < sizes.getD j 0)
    (hnn : ∀ j, j < ids.length → 0 ≤ ids.getD j 0)
    (hnd : ids.Nodup)
    (hsum : sizes.sum = (countTrue cult : Int))
    (h : create_farms_numba H W cult ids sizes coins fuel = Except.ok out) :
    ∀ i, i < ids.length → (out.grid.count (ids.getD i 0) : Int) = sizes.getD i 0 :=
  (alloc_final ⟨hcl, hlen, hpos, hnn, hnd, hsum⟩ h).2.1

/-- C1 witness: a full concrete `2 × 2` run with sizes 1 and 3, checked
for both agents. -/
theorem C1_exact_size_match_witness :
    ((([((0 : Int)), 1, 1, 1]).count (([(0 : Int), 1]).getD 0 0) : Int) =
        ([(1 : Int), 3]).getD 0 0) ∧
    ((([((0 : Int)), 1, 1, 1]).count (([(0 : Int), 1]).getD 1 0) : Int) =
        ([(1 : Int), 3]).getD 1 0) := by
  have h := C1_exact_size_match 2 2 [true, true, true, true] [0, 1] [1, 3] (fun _ => false) 50
    ⟨[0, 1, 1, 1], [0, 1, 2], [(0, 0), (0, 1), (1, 1), (1, 0)]⟩
    (by decide) (by decide) (by decide) (by decide) (by decide) (by decide) (by rfl)
  exact ⟨h 0 (by decide), h 1 (by decide)⟩

/-- C2: under the preconditions, in any returned grid every cultivable
cell holds a non-sentinel, non-negative agent id and every non-cultivable
cell holds the output's non-cultivable sentinel `-1`; moreover the
internal no-unassigned-cells-remain assertion of source line 90 never
fires (the call never returns that error, for any fuel). -/
theorem C2_partition_completeness (H W : Nat) (cult : List Bool) (ids sizes : List Int)
    (coins : Nat → Bool) (fuel : Nat)
    (hcl : cult.length = H * W)
    (hlen : sizes.length = ids.length)
    (hpos : ∀ j, j < ids.length → 0 < sizes.getD j 0)
    (hnn : ∀ j, j < ids.length → 0 ≤ ids.getD j 0)
    (hnd : ids.Nodup)
    (hsum : sizes.sum = (countTrue cult : Int)) :
    (∀ out, create_farms_numba H W cult ids sizes coins fuel = Except.ok out →
      ∀ q, q < H * W →
        (cult.getD q false = true → 0 ≤ out.grid.getD q 0 ∧ out.grid.getD q 0 ≠ -1) ∧
        (cult.getD q false = false → out.grid.getD q 0 = -1)) ∧
    create_farms_numba H W cult ids sizes coins fuel
      ≠ Except.error AllocErr.assertNoUnassigned := by
  have pre : Pre H W cult ids sizes := ⟨hcl, hlen, hpos, hnn, hnd, hsum⟩
  constructor
  · intro out h q hq
    have hfin := (alloc_final pre h).2.2.1 q hq
    refine ⟨?_, hfin.2⟩
    intro hc
    obtain ⟨j, hj1, hj2, hj3⟩ := hfin.1 hc
    have := hnn j hj1
    exact ⟨hj3, by omega⟩
  · unfold create_farms_numba
    rcases hol : outerLoop H W ids sizes coins fuel (List.range (H * W))
      { farms := cult.map (fun c => if c then (-1 : Int) else -2), counter := 0, cur := 0,
        farmId := ids.getD 0 0, farmSize := sizes.getD 0 0,
        coinIdx := 0, idReads := [0], log := [] } with e | stf
    · intro h2
      have h3 : (Except.error e : Except AllocErr AllocOut)
          = Except.error AllocErr.assertNoUnassigned := h2
      have h4 : e = AllocErr.assertNoUnassigned := Except.error.inj h3
      rcases outerLoop_err _ _ _ hol with h5 | h5 <;> simp [h5] at h4
    · rw [List.range_eq_range'] at hol
      have hfin : Inv H W cult ids sizes (H * W) stf :=
        outerLoop_inv pre (H * W) 0 _ stf (by omega) (inv_init pre) hol
      have hany : ¬ (stf.farms.any (fun v => v == -1)) = true := by
        rw [List.any_eq_true]
        rintro ⟨v, hv, hv2⟩
        have hv3 : v = -1 := by simpa using hv2
        subst hv3
        obtain ⟨q, hq, hq2⟩ := exists_getD_of_count_pos (List.count_pos_iff.mpr hv)
        exact hfin.hbefore q (by rw [← hfin.hflen]; exact hq) hq2
      intro h2
      have h3 : (if (stf.farms.any (fun v => v == -1)) = true then
            (Except.error AllocErr.assertNoUnassigned : Except AllocErr AllocOut)
          else Except.ok
            { grid := stf.farms.map (fun v => if v ≠ -2 then v else -1),
              idReads := stf.idReads, log := stf.log })
          = Except.error AllocErr.assertNoUnassigned := h2
      rw [if_neg hany] at h3
      exact absurd h3 (by simp)

/-- C2 witness: a concrete `3 × 3` run with the centre cell not
cultivable. -/
theorem C2_partition_completeness_witness :
    (∀ out, create_farms_numba 3 3 [true, true, true, true, false, true, true, true, true]
        [5] [8] (fun _ => false) 60 = Except.ok out →
      ∀ q, q < 3 * 3 →
        (([true, true, true, true, false, true, true, true, true]).getD q false = true →
          0 ≤ out.grid.getD q 0 ∧ out.grid.getD q 0 ≠ -1) ∧
        (([true, true, true, true, false, true, true, true, true]).getD q false = false →
          out.grid.getD q 0 = -1)) ∧
    create_farms_numba 3 3 [true, true, true, true, false, true, true, true, true]
      [5] [8] (fun _ => false) 60 ≠ Except.error AllocErr.assertNoUnassigned :=
  C2_partition_completeness 3 3 [true, true, true, true, false, true, true, true, true]
    [5] [8] (fun _ => false) 60
    (by decide) (by decide) (by decide) (by decide) (by decide) (by decide)

/-- C6: under the preconditions, the set of distinct non-sentinel values
appearing in any returned grid equals exactly the set of input agent ids:
a non-sentinel value appears in some cell iff it is one of the input
ids. -/
theorem C6_dense_id_range (H W : Nat) (cult : List Bool) (ids sizes : List Int)
    (coins : Nat → Bool) (fuel : Nat) (out : AllocOut)
    (hcl : cult.length = H * W)
    (hlen : sizes.length = ids.length)
    (hpos : ∀ j, j < ids.length → 0 < sizes.getD j 0)
    (hnn : ∀ j, j < ids.length → 0 ≤ ids.getD j 0)
    (hnd : ids.Nodup)
    (hsum : sizes.sum = (countTrue cult : Int))
    (h : create_farms_numba H W cult ids sizes coins fuel = Except.ok out) :
    ∀ v : Int, ((∃ q, q < H * W ∧ out.grid.getD q 0 = v) ∧ v ≠ -1) ↔
      ∃ i, i < ids.length ∧ v = ids.getD i 0 := by
  have pre : Pre H W cult ids sizes := ⟨hcl, hlen, hpos, hnn, hnd, hsum⟩
  obtain ⟨hL, hcount, hcells, _⟩ := alloc_final pre h
  intro v
  constructor
  · rintro ⟨⟨q, hq, hv⟩, hv2⟩
    rcases hcells q hq with ⟨h1, h2⟩
    by_cases hc : cult.getD q false = true
    · obtain ⟨j, hj1, hj2, _⟩ := h1 hc
      exact ⟨j, hj1, by rw [← hv, hj2]⟩
    · have hc2 : cult.getD q false = false := Bool.eq_false_iff.mpr hc
      exact absurd (hv ▸ h2 hc2) hv2
  · rintro ⟨i, hi, hv⟩
    have hc := hcount i hi
    have hp := hpos i hi
    have hcp : 0 < out.grid.count (ids.getD i 0) := by omega
    obtain ⟨q, hq, hq2⟩ := exists_getD_of_count_pos hcp
    have hnn2 := hnn i hi
    refine ⟨⟨q, by rw [← hL]; exact hq, ?_⟩, by omega⟩
    rw [hv, ← hq2]
    exact getD_irrel hq 0 (-2)

/-- C10: the public wrapper imposes an undocumented extra precondition:
for inputs whose agent ids are valid (non-negative, pairwise distinct,
sizes positive and summing to the cultivable count) but not exactly the
dense set `{0..N-1}` — witnessed by some id `≥ N` — a completed allocation
still makes `create_farms` fail with an assertion error (the dense-label
assert of source lines 105-106 or the max-label assert of line 108). -/
theorem C10_wrapper_dense_requirement
    (H W : Nat) (cult : List Bool) (agents : List (Int × Int)) (perm : List Nat)
    (coins : Nat → Bool) (fuel : Nat)
    (hcl : cult.length = H * W)
    (hpos : ∀ pr ∈ agents, 0 < pr.2)
    (hnn : ∀ pr ∈ agents, 0 ≤ pr.1)
    (hnd : (agents.map Prod.fst).Nodup)
    (hsum : (agents.map Prod.snd).sum = (countTrue cult : Int))
    (hsh : (perm.filterMap (fun i => agents.get? i)).Perm agents)
    (hbig : ∃ pr ∈ agents, (agents.length : Int) ≤ pr.1)
    (out : AllocOut)
    (hok : create_farms_numba H W cult
      ((perm.filterMap (fun i => agents.get? i)).map Prod.fst)
      ((perm.filterMap (fun i => agents.get? i)).map Prod.snd) coins fuel
      = Except.ok out) :
    create_farms H W cult agents perm coins fuel = Except.error FarmsErr.denseAssert ∨
    create_farms H W cult agents perm coins fuel = Except.error FarmsErr.maxAssert := by
  have hsumne : ¬ ((countTrue cult : Int) ≠ (agents.map Prod.snd).sum) := fun hne =>
    hne hsum.symm
  have hcf : create_farms H W cult agents perm coins fuel =
      post_asserts H W cult (perm.filterMap (fun i => agents.get? i)) out := by
    unfold create_farms
    rw [if_neg hsumne, hok]
  have hlen_sh : (perm.filterMap (fun i => agents.get? i)).length = agents.length :=
    hsh.length_eq
  have hpre : Pre H W cult ((perm.filterMap (fun i => agents.get? i)).map Prod.fst)
      ((perm.filterMap (fun i => agents.get? i)).map Prod.snd) := by
    refine ⟨hcl, by rw [List.length_map, List.length_map], ?_, ?_, ?_, ?_⟩
    · intro j hj
      rw [List.length_map] at hj
      have hj2 : j < ((perm.filterMap (fun i => agents.get? i)).map Prod.snd).length := by
        rw [List.length_map]
        exact hj
      obtain ⟨pr, hpr, hpr2⟩ := List.mem_map.mp (getD_mem_of_lt hj2 (0 : Int))
      rw [← hpr2]
      exact hpos pr (hsh.mem_iff.mp hpr)
    · intro j hj
      rw [List.length_map] at hj
      have hj2 : j < ((perm.filterMap (fun i => agents.get? i)).map Prod.fst).length := by
        rw [List.length_map]
        exact hj
      obtain ⟨pr, hpr, hpr2⟩ := List.mem_map.mp (getD_mem_of_lt hj2 (0 : Int))
      rw [← hpr2]
      exact hnn pr (hsh.mem_iff.mp hpr)
    · exact ((hsh.map Prod.fst).nodup_iff).mpr hnd
    · exact ((hsh.map Prod.snd).sum_eq).trans hsum
  obtain ⟨hL, hcount, hcells, hcountP⟩ := alloc_final hpre hok
  obtain ⟨pr, hpra, hprbig⟩ := hbig
  obtain ⟨i0, hi0, hget⟩ := List.mem_iff_getElem.mp (hsh.mem_iff.mpr hpra)
  have hi0b : i0 < ((perm.filterMap (fun i => agents.get? i)).map Prod.fst).length := by
    rw [List.length_map]
    exact hi0
  have hid0 : ((perm.filterMap (fun i => agents.get? i)).map Prod.fst).getD i0 0
      = pr.1 := by
    rw [List.getD_eq_getElem _ 0 hi0b, List.getElem_map, hget]
  have hcnt0 := hcount i0 (by rw [List.length_map]; exact hi0)
  have hsz0 : (0 : Int)
      < ((perm.filterMap (fun i => agents.get? i)).map Prod.snd).getD i0 0 :=
    hpre.hpos i0 (by rw [List.length_map]; exact hi0)
  have hposcnt : 0 < out.grid.count
      (((perm.filterMap (fun i => agents.get? i)).map Prod.fst).getD i0 0) := by
    omega
  have hmem := List.count_pos_iff.mp hposcnt
  rw [hid0] at hmem
  have hmax : (agents.length : Int) ≤ listMax out.grid :=
    le_trans hprbig (listMax_ge hmem)
  rw [hcf]
  unfold post_asserts
  by_cases hdense : ((out.grid.filter (fun v => decide (v ≠ -1))).dedup).length > 0 ∧
      (((out.grid.filter (fun v => decide (v ≠ -1))).dedup).length : Int) ≠
        listMax ((out.grid.filter (fun v => decide (v ≠ -1))).dedup) + 1
  · left
    rw [if_pos hdense]
  · right
    rw [if_neg hdense]
    have hcnteq : ¬ (((perm.filterMap (fun i => agents.get? i)).map Prod.snd).sum ≠
        (out.grid.countP (fun v => decide (v ≠ -1)) : Int)) := by
      rw [hcountP, hpre.hsum]
      simp
    rw [if_neg hcnteq]
    have hmaxne : listMax out.grid + 1 ≠
        ((perm.filterMap (fun i => agents.get? i)).length : Int) := by
      rw [hlen_sh]
      omega
    rw [if_pos hmaxne]

/-- C10 witness: agents with ids `{3, 7}` (valid but not `{0, 1}`) on a
fully cultivable `1 × 2` grid; the allocation completes with grid `[3, 7]`
and the wrapper trips the dense-label assert. -/
theorem C10_wrapper_dense_requirement_witness :
    create_farms 1 2 [true, true] [(3, 1), (7, 1)] [0, 1] (fun _ => false) 50 =
      Except.error FarmsErr.denseAssert ∨
    create_farms 1 2 [true, true] [(3, 1), (7, 1)] [0, 1] (fun _ => false) 50 =
      Except.error FarmsErr.maxAssert :=
  C10_wrapper_dense_requirement 1 2 [true, true] [(3, 1), (7, 1)] [0, 1]
    (fun _ => false) 50
    (by decide) (by decide) (by decide) (by decide) (by decide) (by decide) (by decide)
    ⟨[3, 7], [0, 1, 2], [(0, 0), (0, 1)]⟩ (by rfl)

/-- C6 witness: the `2 × 3` run with ids 4 and 9, instantiated at the
value 4 (an input id that does appear) and at 7 (a non-id value that must
not appear). -/
theorem C6_dense_id_range_witness :
    (((∃ q, q < 2 * 3 ∧
        (([(4 : Int), 4, 9, 4, 9, 9]).getD q 0 = 4)) ∧ (4 : Int) ≠ -1) ↔
      ∃ i, i < ([(4 : Int), 9]).length ∧ (4 : Int) = ([(4 : Int), 9]).getD i 0) ∧
    (((∃ q, q < 2 * 3 ∧
        (([(4 : Int), 4, 9, 4, 9, 9]).getD q 0 = 7)) ∧ (7 : Int) ≠ -1) ↔
      ∃ i, i < ([(4 : Int), 9]).length ∧ (7 : Int) = ([(4 : Int), 9]).getD i 0) := by
  have h := C6_dense_id_range 2 3 [true, true, true, true, true, true] [4, 9] [3, 3]
    (fun _ => false) 60 ⟨[4, 4, 9, 4, 9, 9], [0, 1, 2], [(0, 0), (0, 1), (1, 0), (0, 2), (1, 2), (1, 1)]⟩
    (by decide) (by decide) (by decide) (by decide) (by decide) (by decide) (by rfl)
  exact ⟨h 4, h 7⟩

lemma growFarm_mono {H W : Nat} {fid fsz : Int} {coins : Nat → Bool} :
    ∀ (n : Nat) (st : GrowSt) (r : GrowSt × Bool),
      growFarm H W fid fsz coins n st = some r →
      growFarm H W fid fsz coins (n + 1) st = some r := by
  intro n
  induction n with
  | zero =>
    intro st r h
    exact absurd h (by rw [growFarm]; simp)
  | succ n ih =>
    intro st r h
    rw [growFarm] at h
    rw [growFarm]
    by_cases hck : checkBox H W st.farms st.ylow st.yhigh st.xlow st.xhigh st.ysearch
      st.xsearch = true
    · rw [if_pos hck] at h ⊢
      set s := scanBox H W fid fsz (intRange st.ylow st.yhigh) (intRange st.xlow st.xhigh)
        { farms := st.farms, cur := st.cur, done := false, log := st.log } with hs
      by_cases hdn : s.done = true
      · rw [if_pos hdn] at h ⊢
        exact h
      · rw [if_neg hdn] at h ⊢
        exact ih _ r h
    · rw [if_neg hck] at h ⊢
      exact h

lemma growFarm_mono_le {H W : Nat} {fid fsz : Int} {coins : Nat → Bool}
    {n m : Nat} (hnm : n ≤ m) {st : GrowSt} {r : GrowSt × Bool}
    (h : growFarm H W fid fsz coins n st = some r) :
    growFarm H W fid fsz coins m st = some r := by
  induction m with
  | zero =>
    have hn : n = 0 := by omega
    subst hn
    exact h
  | succ m ihm =>
    by_cases hm : n = m + 1
    · subst hm
      exact h
    · exact growFarm_mono m st r (ihm (by omega))

lemma scanRow_cur_mono {H W : Nat} {fid fsz : Int} {yf : Int} :
    ∀ (cols : List Int) (st : ScanSt),
      (scanRow H W fid fsz yf cols st).done = false →
      st.cur ≤ (scanRow H W fid fsz yf cols st).cur := by
  intro cols
  induction cols with
  | nil =>
    intro st _
    rw [scanRow]
  | cons xf rest ih =>
    intro st hd
    rw [scanRow] at hd ⊢
    by_cases hg : xf < (W : Int) ∧ yf < (H : Int) ∧ readRaw H W st.farms yf xf = -1
    · rw [if_pos hg] at hd ⊢
      by_cases hdone : ((st.cur + 1 : Nat) : Int) = fsz
      · rw [if_pos hdone] at hd
        exact absurd hd (by simp)
      · rw [if_neg hdone] at hd ⊢
        have h2 := ih _ hd
        calc st.cur ≤ st.cur + 1 := by omega
        _ ≤ _ := h2
    · rw [if_neg hg] at hd ⊢
      exact ih st hd

lemma scanBox_cur_mono {H W : Nat} {fid fsz : Int} :
    ∀ (rows cols : List Int) (st : ScanSt),
      (scanBox H W fid fsz rows cols st).done = false →
      st.cur ≤ (scanBox H W fid fsz rows cols st).cur := by
  intro rows
  induction rows with
  | nil =>
    intro cols st _
    rw [scanBox]
  | cons yf rest ih =>
    intro cols st hd
    rw [scanBox] at hd ⊢
    by_cases hdn : (scanRow H W fid fsz yf cols st).done = true
    · rw [if_pos hdn] at hd ⊢
      exact absurd hd (by rw [hdn]; simp)
    · rw [if_neg hdn] at hd ⊢
      have h1 := scanRow_cur_mono cols st (Bool.eq_false_iff.mpr hdn)
      exact le_trans h1 (ih cols _ hd)

lemma scanRow_cur_bound {H W : Nat} {fid fsz : Int} {yf : Int} :
    ∀ (cols : List Int) (st : ScanSt),
      (scanRow H W fid fsz yf cols st).done = false →
      (st.cur : Int) < fsz →
      ((scanRow H W fid fsz yf cols st).cur : Int) < fsz := by
  intro cols
  induction cols with
  | nil =>
    intro st _ hc
    rw [scanRow]
    exact hc
  | cons xf rest ih =>
    intro st hd hc
    rw [scanRow] at hd ⊢
    by_cases hg : xf < (W : Int) ∧ yf < (H : Int) ∧ readRaw H W st.farms yf xf = -1
    · rw [if_pos hg] at hd ⊢
      by_cases hdone : ((st.cur + 1 : Nat) : Int) = fsz
      · rw [if_pos hdone] at hd
        exact absurd hd (by simp)
      · rw [if_neg hdone] at hd ⊢
        refine ih _ hd ?_
        push_cast at hdone hc ⊢
        omega
    · rw [if_neg hg] at hd ⊢
      exact ih st hd hc

lemma scanBox_cur_bound {H W : Nat} {fid fsz : Int} :
    ∀ (rows cols : List Int) (st : ScanSt),
      (scanBox H W fid fsz rows cols st).done = false →
      (st.cur : Int) < fsz →
      ((scanBox H W fid fsz rows cols st).cur : Int) < fsz := by
  intro rows
  induction rows with
  | nil =>
    intro cols st _ hc
    rw [scanBox]
    exact hc
  | cons yf rest ih =>
    intro cols st hd hc
    rw [scanBox] at hd ⊢
    by_cases hdn : (scanRow H W fid fsz yf cols st).done = true
    · rw [if_pos hdn] at hd ⊢
      exact absurd hd (by rw [hdn]; simp)
    · rw [if_neg hdn] at hd ⊢
      exact ih cols _ hd (scanRow_cur_bound cols st (Bool.eq_false_iff.mpr hdn) hc)

lemma scanRow_done_cur {H W : Nat} {fid fsz : Int} {yf : Int} :
    ∀ (cols : List Int) (st : ScanSt), st.done = false →
      (scanRow H W fid fsz yf cols st).done = true →
      (scanRow H W fid fsz yf cols st).cur = 0 := by
  intro cols
  induction cols with
  | nil =>
    intro st hd hdn
    rw [scanRow] at hdn
    exact absurd (hd ▸ hdn) (by simp)
  | cons xf rest ih =>
    intro st hd hdn
    rw [scanRow] at hdn ⊢
    by_cases hg : xf < (W : Int) ∧ yf < (H : Int) ∧ readRaw H W st.farms yf xf = -1
    · rw [if_pos hg] at hdn ⊢
      by_cases hdone : ((st.cur + 1 : Nat) : Int) = fsz
      · rw [if_pos hdone]
      · rw [if_neg hdone] at hdn ⊢
        exact ih _ rfl hdn
    · rw [if_neg hg] at hdn ⊢
      exact ih st hd hdn

lemma scanBox_done_cur {H W : Nat} {fid fsz : Int} :
    ∀ (rows cols : List Int) (st : ScanSt), st.done = false →
      (scanBox H W fid fsz rows cols st).done = true →
      (scanBox H W fid fsz rows cols st).cur = 0 := by
  intro rows
  induction rows with
  | nil =>
    intro cols st hd hdn
    rw [scanBox] at hdn
    exact absurd (hd ▸ hdn) (by simp)
  | cons yf rest ih =>
    intro cols st hd hdn
    rw [scanBox] at hdn ⊢
    by_cases hdn2 : (scanRow H W fid fsz yf cols st).done = true
    · rw [if_pos hdn2] at hdn ⊢
      exact scanRow_done_cur cols st hd hdn2
    · rw [if_neg hdn2] at hdn ⊢
      exact ih cols _ (Bool.eq_false_iff.mpr hdn2) hdn

lemma growFarm_done_cur {H W : Nat} {fid fsz : Int} {coins : Nat → Bool} :
    ∀ (n : Nat) (st g : GrowSt),
      growFarm H W fid fsz coins n st = some (g, true) → g.cur = 0 := by
  intro n
  induction n with
  | zero =>
    intro st g h
    exact absurd h (by rw [growFarm]; simp)
  | succ n ih =>
    intro st g h
    rw [growFarm] at h
    by_cases hck : checkBox H W st.farms st.ylow st.yhigh st.xlow st.xhigh st.ysearch
      st.xsearch = true
    · rw [if_pos hck] at h
      set s := scanBox H W fid fsz (intRange st.ylow st.yhigh) (intRange st.xlow st.xhigh)
        { farms := st.farms, cur := st.cur, done := false, log := st.log } with hs
      by_cases hdn : s.done = true
      · rw [if_pos hdn] at h
        have h2 := Option.some.inj h
        have hg2 : { st with farms := s.farms, cur := s.cur, log := s.log } = g :=
          congrArg Prod.fst h2
        rw [← hg2]
        exact scanBox_done_cur _ _ _ rfl hdn
      · rw [if_neg hdn] at h
        exact ih _ g h
    · rw [if_neg hck] at h
      have h2 := Option.some.inj h
      exact absurd (congrArg Prod.snd h2) (by simp)

lemma growFarm_cur_bound {H W : Nat} {fid fsz : Int} {coins : Nat → Bool} :
    ∀ (n : Nat) (st g : GrowSt),
      growFarm H W fid fsz coins n st = some (g, false) →
      (st.cur : Int) < fsz → (g.cur : Int) < fsz := by
  intro n
  induction n with
  | zero =>
    intro st g h
    exact absurd h (by rw [growFarm]; simp)
  | succ n ih =>
    intro st g h hc
    rw [growFarm] at h
    by_cases hck : checkBox H W st.farms st.ylow st.yhigh st.xlow st.xhigh st.ysearch
      st.xsearch = true
    · rw [if_pos hck] at h
      set s := scanBox H W fid fsz (intRange st.ylow st.yhigh) (intRange st.xlow st.xhigh)
        { farms := st.farms, cur := st.cur, done := false, log := st.log } with hs
      by_cases hdn : s.done = true
      · rw [if_pos hdn] at h
        have h2 := Option.some.inj h
        exact absurd (congrArg Prod.snd h2) (by simp)
      · rw [if_neg hdn] at h
        have hbound := scanBox_cur_bound (intRange st.ylow st.yhigh)
          (intRange st.xlow st.xhigh)
          { farms := st.farms, cur := st.cur, done := false, log := st.log }
          (Bool.eq_false_iff.mpr hdn) hc
        have h3 := ih _ g h
        rw [expandBox_cur] at h3
        exact h3 hbound
    · rw [if_neg hck] at h
      have h2 := Option.some.inj h
      have hg2 : st = g := congrArg Prod.fst h2
      rw [← hg2]
      exact hc

/-- Distance of one box axis from the regime in which the whole check
window is covered by the scan (directly or through negative-index wrap):
when both summands are positive, the single possibly-uncovered check row
`hi + 1` can exist. -/
def sigY (L : Nat) (lo hi : Int) : Nat :=
  ((L : Int) - 1 - hi).toNat + ((L : Int) + lo - hi - 1).toNat

/-- Combined two-axis distance measure of a growth state. -/
def sigma (H W : Nat) (st : GrowSt) : Nat :=
  sigY H st.ylow st.yhigh + sigY W st.xlow st.xhigh

lemma expandBox_box (coins : Nat → Bool) (st : GrowSt) :
    ((expandBox coins st).ylow = st.ylow - 1 ∧ (expandBox coins st).yhigh = st.yhigh ∨
      (expandBox coins st).ylow = st.ylow ∧ (expandBox coins st).yhigh = st.yhigh + 1) ∧
    ((expandBox coins st).xlow = st.xlow - 1 ∧ (expandBox coins st).xhigh = st.xhigh ∨
      (expandBox coins st).xlow = st.xlow ∧ (expandBox coins st).xhigh = st.xhigh + 1) := by
  unfold expandBox
  split
  · split
    · exact ⟨Or.inl ⟨rfl, rfl⟩, Or.inl ⟨rfl, rfl⟩⟩
    · exact ⟨Or.inl ⟨rfl, rfl⟩, Or.inr ⟨rfl, rfl⟩⟩
  · split
    · exact ⟨Or.inr ⟨rfl, rfl⟩, Or.inl ⟨rfl, rfl⟩⟩
    · exact ⟨Or.inr ⟨rfl, rfl⟩, Or.inr ⟨rfl, rfl⟩⟩

lemma sigY_move_le {L : Nat} {lo hi lo2 hi2 : Int}
    (h : lo2 = lo - 1 ∧ hi2 = hi ∨ lo2 = lo ∧ hi2 = hi + 1) :
    sigY L lo2 hi2 ≤ sigY L lo hi := by
  unfold sigY
  rcases h with ⟨h1, h2⟩ | ⟨h1, h2⟩ <;> subst h1 <;> subst h2 <;> omega

lemma sigY_move_lt {L : Nat} {lo hi lo2 hi2 : Int}
    (hun : 0 ≤ lo ∧ hi ≤ (L : Int) - 2)
    (h : lo2 = lo - 1 ∧ hi2 = hi ∨ lo2 = lo ∧ hi2 = hi + 1) :
    sigY L lo2 hi2 < sigY L lo hi := by
  unfold sigY
  rcases h with ⟨h1, h2⟩ | ⟨h1, h2⟩ <;> subst h1 <;> subst h2 <;> omega

lemma normSlice_le (len : Nat) (i : Int) : normSlice len i ≤ len := by
  unfold normSlice
  split <;> omega

/-- Either a check-window row is reachable by some raw scan index on that
axis (directly or by one negative wrap), or the axis is in the regime
`0 ≤ lo ∧ hi ≤ L - 2` in which the only uncovered window row is `hi + 1`. -/
lemma axis_cover {L : Nat} {lo hi : Int} (search : Nat) (hh : 0 ≤ hi) (r : Nat)
    (hr1 : normSlice L lo ≤ r) (hr2 : r < normSlice L (hi + 1 + search)) :
    (∃ f : Int, lo ≤ f ∧ f ≤ hi ∧ f < L ∧ 0 ≤ wrapI L f ∧ wrapI L f < L ∧
      (wrapI L f).toNat = r) ∨ (0 ≤ lo ∧ hi ≤ (L : Int) - 2) := by
  have hrL : r < L := lt_of_lt_of_le hr2 (normSlice_le L _)
  by_cases hlo : 0 ≤ lo
  · by_cases hhi : hi ≤ (L : Int) - 2
    · exact Or.inr ⟨hlo, hhi⟩
    · left
      have hw : wrapI L (r : Int) = (r : Int) := by
        unfold wrapI
        rw [if_neg (by omega)]
      have hlor : lo ≤ (r : Int) := by
        unfold normSlice at hr1
        rw [if_neg (by omega)] at hr1
        omega
      refine ⟨(r : Int), hlor, by omega, by omega, ?_, ?_, ?_⟩
      · rw [hw]
        omega
      · rw [hw]
        omega
      · rw [hw]
        omega
  · left
    have hw : wrapI L ((r : Int) - L) = (r : Int) - L + L := by
      unfold wrapI
      rw [if_pos (by omega)]
    have hlor : lo ≤ (r : Int) - L := by
      unfold normSlice at hr1
      rw [if_pos (by omega)] at hr1
      omega
    refine ⟨(r : Int) - L, hlor, by omega, by omega, ?_, ?_, ?_⟩
    · rw [hw]
      omega
    · rw [hw]
      omega
    · rw [hw]
      omega

lemma mem_intRange {lo hi f : Int} : f ∈ intRange lo hi ↔ lo ≤ f ∧ f ≤ hi := by
  unfold intRange
  rw [List.mem_map]
  constructor
  · rintro ⟨k, hk, rfl⟩
    rw [List.mem_range] at hk
    omega
  · rintro ⟨h1, h2⟩
    refine ⟨(f - lo).toNat, ?_, by omega⟩
    rw [List.mem_range]
    omega

lemma checkBox_true_elim {H W : Nat} {farms : List Int}
    {ylow yhigh xlow xhigh : Int} {ysearch xsearch : Nat}
    (h : checkBox H W farms ylow yhigh xlow xhigh ysearch xsearch = true) :
    ∃ r c : Nat, normSlice H ylow ≤ r ∧ r < normSlice H (yhigh + 1 + ysearch) ∧
      normSlice W xlow ≤ c ∧ c < normSlice W (xhigh + 1 + xsearch) ∧
      farms.getD (r * W + c) (-2) = -1 := by
  unfold checkBox sliceHasUnassigned at h
  rw [List.any_eq_true] at h
  obtain ⟨dr, hdr, h2⟩ := h
  rw [List.any_eq_true] at h2
  obtain ⟨dc, hdc, h3⟩ := h2
  rw [List.mem_range] at hdr hdc
  exact ⟨normSlice H ylow + dr, normSlice W xlow + dc, by omega, by omega, by omega,
    by omega, beq_iff_eq.mp h3⟩

lemma readRaw_of_cover {H W : Nat} (farms : List Int) {yf xf : Int} {r c : Nat}
    (hy1 : 0 ≤ wrapI H yf) (hy2 : wrapI H yf < H) (hy3 : (wrapI H yf).toNat = r)
    (hx1 : 0 ≤ wrapI W xf) (hx2 : wrapI W xf < W) (hx3 : (wrapI W xf).toNat = c) :
    readRaw H W farms yf xf = farms.getD (r * W + c) (-2) := by
  unfold readRaw
  rw [if_pos ⟨hy1, hy2, hx1, hx2⟩, hy3, hx3]

lemma scanRow_no_assign {H W : Nat} {fid fsz : Int} {yf : Int} :
    ∀ (cols : List Int) (st : ScanSt), st.done = false →
      (scanRow H W fid fsz yf cols st).done = false →
      (scanRow H W fid fsz yf cols st).cur = st.cur →
      (scanRow H W fid fsz yf cols st).farms = st.farms ∧
      ∀ xf ∈ cols, xf < (W : Int) → yf < (H : Int) → readRaw H W st.farms yf xf ≠ -1 := by
  intro cols
  induction cols with
  | nil =>
    intro st _ _ _
    rw [scanRow]
    exact ⟨rfl, by simp⟩
  | cons xf rest ih =>
    intro st hd hdn hcur
    rw [scanRow] at hdn hcur ⊢
    by_cases hg : xf < (W : Int) ∧ yf < (H : Int) ∧ readRaw H W st.farms yf xf = -1
    · rw [if_pos hg] at hdn hcur ⊢
      by_cases hdone : ((st.cur + 1 : Nat) : Int) = fsz
      · rw [if_pos hdone] at hdn
        exact absurd hdn (by simp)
      · rw [if_neg hdone] at hdn hcur
        exfalso
        have hmono := scanRow_cur_mono rest
          ⟨writeRaw H W st.farms yf xf fid, st.cur + 1, false, st.log ++ [(yf, xf)]⟩ hdn
        simp only [] at hmono
        omega
    · rw [if_neg hg] at hdn hcur ⊢
      obtain ⟨hf, hrest⟩ := ih st hd hdn hcur
      refine ⟨hf, ?_⟩
      intro xf2 hxf2 hW2 hH2
      rcases List.mem_cons.mp hxf2 with h1 | h1
      · subst h1
        intro hread
        exact hg ⟨hW2, hH2, hread⟩
      · exact hrest xf2 h1 hW2 hH2

lemma scanBox_no_assign {H W : Nat} {fid fsz : Int} :
    ∀ (rows cols : List Int) (st : ScanSt), st.done = false →
      (scanBox H W fid fsz rows cols st).done = false →
      (scanBox H W fid fsz rows cols st).cur = st.cur →
      (scanBox H W fid fsz rows cols st).farms = st.farms ∧
      ∀ yf ∈ rows, ∀ xf ∈ cols, xf < (W : Int) → yf < (H : Int) →
        readRaw H W st.farms yf xf ≠ -1 := by
  intro rows
  induction rows with
  | nil =>
    intro cols st _ _ _
    rw [scanBox]
    exact ⟨rfl, by simp⟩
  | cons yf rest ih =>
    intro cols st hd hdn hcur
    rw [scanBox] at hdn hcur ⊢
    by_cases hdn2 : (scanRow H W fid fsz yf cols st).done = true
    · rw [if_pos hdn2] at hdn
      exact absurd (hdn2.symm.trans hdn) (by simp)
    · rw [if_neg hdn2] at hdn hcur ⊢
      have hdn3 : (scanRow H W fid fsz yf cols st).done = false :=
        Bool.eq_false_iff.mpr hdn2
      have h1 := scanRow_cur_mono cols st hdn3
      have h2 := scanBox_cur_mono rest cols _ hdn
      have hcur2 : (scanRow H W fid fsz yf cols st).cur = st.cur := by omega
      obtain ⟨hfr, hrow⟩ := scanRow_no_assign cols st hd hdn3 hcur2
      have hcur3 : (scanBox H W fid fsz rest cols (scanRow H W fid fsz yf cols st)).cur
          = (scanRow H W fid fsz yf cols st).cur := by omega
      obtain ⟨hfb, hrest⟩ := ih cols _ hdn3 hdn hcur3
      refine ⟨hfb.trans hfr, ?_⟩
      intro yf2 hyf2 xf hxf hW2 hH2
      rcases List.mem_cons.mp hyf2 with h3 | h3
      · subst h3
        exact hrow xf hxf hW2 hH2
      · have h4 := hrest yf2 h3 xf hxf hW2 hH2
        rw [hfr] at h4
        exact h4

/-- Fuel sufficiency for one growth loop: with the target not yet reached
and the box's high bounds nonnegative, fuel exceeding the combined measure
`(remaining cells) * (σ + 1) + σ` never runs out.  Each iteration either
exits, assigns at least one cell (the first factor drops), or assigns
nothing — which forces the box to sit strictly inside the grid on some
axis, so that any expansion strictly shrinks that axis' `sigY`. -/
lemma growFarm_fuel {H W : Nat} {fid fsz : Int} {coins : Nat → Bool} :
    ∀ (n : Nat) (st : GrowSt), 0 ≤ st.yhigh → 0 ≤ st.xhigh →
      (st.cur : Int) < fsz →
      (fsz - (st.cur : Int)).toNat * (sigma H W st + 1) + sigma H W st < n →
      growFarm H W fid fsz coins n st ≠ none := by
  intro n
  induction n with
  | zero =>
    intro st _ _ _ hlt
    exact absurd hlt (by omega)
  | succ n ih =>
    intro st hy hx hc hlt h
    rw [growFarm] at h
    by_cases hck : checkBox H W st.farms st.ylow st.yhigh st.xlow st.xhigh st.ysearch
      st.xsearch = true
    · rw [if_pos hck] at h
      set s := scanBox H W fid fsz (intRange st.ylow st.yhigh) (intRange st.xlow st.xhigh)
        { farms := st.farms, cur := st.cur, done := false, log := st.log } with hs
      by_cases hdn : s.done = true
      · rw [if_pos hdn] at h
        exact absurd h (by simp)
      · rw [if_neg hdn] at h
        have hdn2 : s.done = false := Bool.eq_false_iff.mpr hdn
        have hsc : ((s.cur : Nat) : Int) < fsz := scanBox_cur_bound _ _ _ hdn2 hc
        have hmono : st.cur ≤ s.cur := scanBox_cur_mono _ _ _ hdn2
        set E := expandBox coins { st with farms := s.farms, cur := s.cur, log := s.log }
          with hE
        have hbox := expandBox_box coins
          { st with farms := s.farms, cur := s.cur, log := s.log }
        rw [← hE] at hbox
        dsimp only at hbox
        have hEcur : E.cur = s.cur := by
          rw [hE, expandBox_cur]
        have hy2 : 0 ≤ E.yhigh := by
          rcases hbox.1 with ⟨_, h2⟩ | ⟨_, h2⟩ <;> rw [h2] <;> omega
        have hx2 : 0 ≤ E.xhigh := by
          rcases hbox.2 with ⟨_, h2⟩ | ⟨_, h2⟩ <;> rw [h2] <;> omega
        have hc2 : ((E.cur : Nat) : Int) < fsz := by
          rw [hEcur]
          exact hsc
        have hsyE : sigma H W E = sigY H E.ylow E.yhigh + sigY W E.xlow E.xhigh := rfl
        have hsySt : sigma H W st = sigY H st.ylow st.yhigh + sigY W st.xlow st.xhigh := rfl
        by_cases hprog : s.cur = st.cur
        · -- no assignment happened in the scan: the check cell is uncovered,
          -- so some axis satisfies the strict-shrink condition
          obtain ⟨_, hnone⟩ := scanBox_no_assign (intRange st.ylow st.yhigh)
            (intRange st.xlow st.xhigh)
            { farms := st.farms, cur := st.cur, done := false, log := st.log }
            rfl (hs ▸ hdn2) (hs ▸ hprog)
          obtain ⟨r, c, hr1, hr2, hc1, hc2b, hget⟩ := checkBox_true_elim hck
          have hσle_y : sigY H E.ylow E.yhigh ≤ sigY H st.ylow st.yhigh :=
            sigY_move_le hbox.1
          have hσle_x : sigY W E.xlow E.xhigh ≤ sigY W st.xlow st.xhigh :=
            sigY_move_le hbox.2
          have hσlt : sigma H W E < sigma H W st := by
            rcases axis_cover st.ysearch hy r hr1 hr2 with
              ⟨yf, hylo, hyhi, hyH, hyw1, hyw2, hyw3⟩ | hyun
            · rcases axis_cover st.xsearch hx c hc1 hc2b with
                ⟨xf, hxlo, hxhi, hxW, hxw1, hxw2, hxw3⟩ | hxun
              · exact absurd
                  ((readRaw_of_cover st.farms hyw1 hyw2 hyw3 hxw1 hxw2 hxw3).trans hget)
                  (hnone yf (mem_intRange.mpr ⟨hylo, hyhi⟩)
                    xf (mem_intRange.mpr ⟨hxlo, hxhi⟩) hxW hyH)
              · have := sigY_move_lt hxun hbox.2
                rw [hsyE, hsySt]
                omega
            · have := sigY_move_lt hyun hbox.1
              rw [hsyE, hsySt]
              omega
          refine ih E hy2 hx2 hc2 ?_ h
          rw [hEcur, hprog]
          have hm1 : (fsz - (st.cur : Int)).toNat * (sigma H W E + 1) ≤
              (fsz - (st.cur : Int)).toNat * (sigma H W st + 1) :=
            Nat.mul_le_mul (le_refl _) (by omega)
          omega
        · -- at least one cell was assigned: the remaining-cells factor drops
          have hgt : st.cur < s.cur := lt_of_le_of_ne hmono (fun h2 => hprog h2.symm)
          have hσle : sigma H W E ≤ sigma H W st := by
            have h1 := sigY_move_le (L := H) hbox.1
            have h2 := sigY_move_le (L := W) hbox.2
            rw [hsyE, hsySt]
            omega
          refine ih E hy2 hx2 hc2 ?_ h
          rw [hEcur]
          have hm1 : (fsz - (s.cur : Int)).toNat * (sigma H W E + 1) ≤
              (fsz - (s.cur : Int)).toNat * (sigma H W st + 1) :=
            Nat.mul_le_mul (le_refl _) (by omega)
          have hm2 : ((fsz - (s.cur : Int)).toNat + 1) * (sigma H W st + 1) ≤
              (fsz - (st.cur : Int)).toNat * (sigma H W st + 1) :=
            Nat.mul_le_mul (by omega) (le_refl _)
          have hm3 : ((fsz - (s.cur : Int)).toNat + 1) * (sigma H W st + 1) =
              (fsz - (s.cur : Int)).toNat * (sigma H W st + 1) + (sigma H W st + 1) := by
            ring
          omega
    · rw [if_neg hck] at h
      exact absurd h (by simp)

/-- Fuel sufficiency for the outer row-major scan: some fuel value (and
every larger one) lets every growth loop run to its natural exit, so the
scan never reports fuel exhaustion.  The invariant carried along is that
the running counter is `0` (a fresh agent) or still below the cached
target size. -/
lemma outerLoop_fuel {H W : Nat} {ids sizes : List Int} {coins : Nat → Bool} :
    ∀ (ps : List Nat) (st : AllocSt), st.cur = 0 ∨ (st.cur : Int) < st.farmSize →
      ∃ fuel : Nat, ∀ fuel2, fuel ≤ fuel2 →
        outerLoop H W ids sizes coins fuel2 ps st ≠ .error .outOfFuel := by
  intro ps
  induction ps with
  | nil =>
    intro st _
    refine ⟨0, fun fuel2 _ h => ?_⟩
    rw [outerLoop] at h
    exact Except.noConfusion h
  | cons p rest ih =>
    intro st hinv
    by_cases hcell : st.farms.getD p 0 = -1
    · by_cases hfs : st.farmSize ≤ 0
      · refine ⟨0, fun fuel2 _ h => ?_⟩
        rw [outerLoop] at h
        have hcellEq : outerCell H W ids sizes coins fuel2 p st =
            .error .assertSizePos := by
          rw [outerCell, if_pos hcell, if_pos hfs]
        rw [hcellEq] at h
        have h2 : (Except.error AllocErr.assertSizePos : Except AllocErr AllocSt) =
            Except.error AllocErr.outOfFuel := h
        injection h2 with h3
        exact absurd h3 (by decide)
      · have hcinv : ((st.cur : Nat) : Int) < st.farmSize := by
          rcases hinv with h1 | h1
          · rw [h1]
            omega
          · exact h1
        set seed : GrowSt :=
          { farms := st.farms, cur := st.cur,
            ylow := (p / W : Nat), yhigh := (p / W : Nat) + 1,
            xlow := (p % W : Nat), xhigh := (p % W : Nat) + 1,
            ysearch := 0, xsearch := 0,
            coinIdx := st.coinIdx, log := st.log } with hseed
        have hscur : seed.cur = st.cur := by rw [hseed]
        have hsfz : ((seed.cur : Nat) : Int) < st.farmSize := by
          rw [hscur]
          exact hcinv
        set f0 : Nat := (st.farmSize - (st.cur : Int)).toNat * (sigma H W seed + 1) +
          sigma H W seed + 1 with hf0
        have hgrow : growFarm H W st.farmId st.farmSize coins f0 seed ≠ none := by
          refine growFarm_fuel f0 seed ?_ ?_ hsfz ?_
          · rw [hseed]
            show (0 : Int) ≤ (p : Int) / (W : Int) + 1
            have h0 : (0 : Int) ≤ (p : Int) / (W : Int) :=
              Int.ediv_nonneg (Int.natCast_nonneg p) (Int.natCast_nonneg W)
            omega
          · rw [hseed]
            show (0 : Int) ≤ (p : Int) % (W : Int) + 1
            omega
          · rw [hscur, hf0]
            omega
        rcases hgr : growFarm H W st.farmId st.farmSize coins f0 seed with _ | r
        · exact absurd hgr hgrow
        · obtain ⟨g, done⟩ := r
          cases done with
          | true =>
            have hcur0 : g.cur = 0 := growFarm_done_cur f0 seed g hgr
            set st2 : AllocSt :=
              { farms := g.farms, counter := st.counter + 1, cur := g.cur,
                farmId := ids.getD (st.counter + 1) 0,
                farmSize := sizes.getD (st.counter + 1) 0,
                coinIdx := g.coinIdx,
                idReads := st.idReads ++ [st.counter + 1], log := g.log } with hst2
            obtain ⟨f1, hf1⟩ := ih st2 (Or.inl (by rw [hst2]; exact hcur0))
            refine ⟨max f0 f1, fun fuel2 hf2 h => ?_⟩
            have hg2 : growFarm H W st.farmId st.farmSize coins fuel2 seed =
                some (g, true) :=
              growFarm_mono_le (le_trans (le_max_left _ _) hf2) hgr
            rw [outerLoop] at h
            rw [outerCell, if_pos hcell, if_neg hfs, ← hseed, hg2] at h
            have h2 : outerLoop H W ids sizes coins fuel2 rest st2 =
                Except.error AllocErr.outOfFuel := h
            exact hf1 fuel2 (le_trans (le_max_right _ _) hf2) h2
          | false =>
            have hcb : ((g.cur : Nat) : Int) < st.farmSize :=
              growFarm_cur_bound f0 seed g hgr hsfz
            set st2 : AllocSt :=
              { st with farms := g.farms, cur := g.cur,
                        coinIdx := g.coinIdx, log := g.log } with hst2
            obtain ⟨f1, hf1⟩ := ih st2 (Or.inr (by rw [hst2]; exact hcb))
            refine ⟨max f0 f1, fun fuel2 hf2 h => ?_⟩
            have hg2 : growFarm H W st.farmId st.farmSize coins fuel2 seed =
                some (g, false) :=
              growFarm_mono_le (le_trans (le_max_left _ _) hf2) hgr
            rw [outerLoop] at h
            rw [outerCell, if_pos hcell, if_neg hfs, ← hseed, hg2] at h
            have h2 : outerLoop H W ids sizes coins fuel2 rest st2 =
                Except.error AllocErr.outOfFuel := h
            exact hf1 fuel2 (le_trans (le_max_right _ _) hf2) h2
    · obtain ⟨f1, hf1⟩ := ih st hinv
      refine ⟨f1, fun fuel2 hf2 h => ?_⟩
      rw [outerLoop] at h
      have hcellEq : outerCell H W ids sizes coins fuel2 p st = .ok st := by
        rw [outerCell, if_neg hcell]
      rw [hcellEq] at h
      have h2 : outerLoop H W ids sizes coins fuel2 rest st =
          Except.error AllocErr.outOfFuel := h
      exact hf1 fuel2 hf2 h2

/-- C8: for every input (grid shape, cultivation mask, agent ids and sizes)
and every sequence of coin flips, the allocation terminates: there is a
fuel budget — and every larger budget works as well — under which
`create_farms_numba` never reports fuel exhaustion, i.e. every box-growth
loop exits after finitely many expansions and the outer row-major scan
completes, the call ending in a result or in one of the assertion
failures. -/
theorem C8_termination (H W : Nat) (cult : List Bool) (ids sizes : List Int)
    (coins : Nat → Bool) :
    ∃ fuel : Nat, ∀ fuel2, fuel ≤ fuel2 →
      create_farms_numba H W cult ids sizes coins fuel2 ≠
        Except.error AllocErr.outOfFuel := by
  obtain ⟨fuel, hf⟩ := @outerLoop_fuel H W ids sizes coins (List.range (H * W))
    { farms := cult.map (fun c => if c then (-1 : Int) else -2), counter := 0, cur := 0,
      farmId := ids.getD 0 0, farmSize := sizes.getD 0 0,
      coinIdx := 0, idReads := [0], log := [] } (Or.inl rfl)
  refine ⟨fuel, fun fuel2 h2 hbad => ?_⟩
  rw [create_farms_numba] at hbad
  rcases hol : outerLoop H W ids sizes coins fuel2 (List.range (H * W))
    { farms := cult.map (fun c => if c then (-1 : Int) else -2), counter := 0, cur := 0,
      farmId := ids.getD 0 0, farmSize := sizes.getD 0 0,
      coinIdx := 0, idReads := [0], log := [] } with e | st
  · rw [hol] at hbad
    have h3 : (Except.error e : Except AllocErr AllocOut) =
        Except.error AllocErr.outOfFuel := hbad
    injection h3 with h4
    rw [h4] at hol
    exact hf fuel2 h2 hol
  · rw [hol] at hbad
    have h3 : (if st.farms.any (fun v => v == -1) then
        (Except.error AllocErr.assertNoUnassigned : Except AllocErr AllocOut)
      else
        .ok { grid := st.farms.map (fun v => if v ≠ -2 then v else -1),
              idReads := st.idReads, log := st.log }) =
        Except.error AllocErr.outOfFuel := hbad
    split at h3
    · injection h3 with h4
      exact absurd h4 (by decide)
    · exact Except.noConfusion h3

end FarmsPy
